import Mathlib

/-!
Verification of the myratree orchestration core against its design document.

The development shallowly embeds the relevant parts of the TypeScript sources:

* `src/issues/lifecycle.ts` — the issue state machine (`validTransitions`,
  `canTransition`);
* `src/issues/tracker.ts` — the issue store (`getNextId`, `create`,
  `update`/`updateStatus`, deletion), modelled over an in-memory list of
  issue records standing for the on-disk issue files;
* `src/llm/router.ts` — weighted round-robin endpoint selection
  (`selectEndpoint`);
* `src/agents/worker.ts` — terminal-outcome classification
  (`evaluateResult`);
* `src/agents/manager.ts` — the repeated-tool-call guard of the turn loop,
  the worker scheduler (`spawnWorker` / `drainWorkerQueue`), the endpoint
  slot bookkeeping around worker launch/completion/shutdown, and the tool
  dispatcher (`executeTool`);
* `src/issues/parser.ts` — issue record serialization and parsing
  (`serializeIssue`, `parseIssue`).

Strings manipulated by the parsing-heavy functions are modelled as `List
Char` (`Str` below) so that every string operation of the source (split,
trim, substring search, the concrete regular expressions) is an executable
Lean function amenable to proof.  JavaScript numbers holding issue ids are
modelled as `Nat`; process exit codes as `Option Int` (`null` ↦ `none`).
-/

namespace Myratree

/-! ## Issue state machine (`src/issues/lifecycle.ts`) -/

/-- Issue lifecycle states, from `IssueStatus` in `src/issues/parser.ts`. -/
inductive IssueStatus
  | «open»
  | in_progress
  | review
  | done
  | blocked
deriving DecidableEq, Repr, Fintype

/-- Issue priorities, from `IssuePriority` in `src/issues/parser.ts`. -/
inductive IssuePriority
  | high
  | medium
  | low
deriving DecidableEq, Repr

/-- The `VALID_TRANSITIONS` table of `src/issues/lifecycle.ts`. -/
def validTransitions : IssueStatus → List IssueStatus
  | .«open» => [.in_progress, .blocked]
  | .in_progress => [.review, .blocked, .«open»]
  | .review => [.done, .in_progress, .«open»]
  | .done => [.«open»]
  | .blocked => [.«open», .in_progress]

/-- The function `canTransition` of `src/issues/lifecycle.ts`. -/
def canTransition (src dst : IssueStatus) : Bool :=
  (validTransitions src).contains dst

/-! ## Issue store (`src/issues/tracker.ts`)

The tracker persists one file per issue; `list` reads them all back.  The
store is modelled as the list of issue records currently on disk.  Only the
fields the claims are about are carried. -/

/-- An issue record as stored by the tracker; `id` is the numeric value of
the zero-padded id string (the tracker compares ids via `parseInt`). -/
structure IssueRec where
  id : Nat
  status : IssueStatus
  priority : IssuePriority
deriving DecidableEq, Repr

/-- The method `IssueTracker.getNextId`: `'001'` for an empty store,
otherwise one more than the maximum existing id. -/
def getNextId (store : List IssueRec) : Nat :=
  if store.isEmpty then 1
  else (store.map (·.id)).foldr Nat.max 0 + 1

/-- The method `IssueTracker.create` restricted to the id/status/priority
fields: a new record with the next id and status `open` is appended to the
store (a new issue file is written).  Returns the new store and the id
assigned. -/
def trackerCreate (store : List IssueRec) (priority : IssuePriority) :
    List IssueRec × Nat :=
  let id := getNextId store
  (store ++ [⟨id, .«open», priority⟩], id)

/-- The `delete_issue` effect on the store (`Manager.executeTool`,
`delete_issue` case): the issue file is removed. -/
def trackerDelete (store : List IssueRec) (id : Nat) : List IssueRec :=
  store.filter (fun i => i.id ≠ id)

/-- The method `IssueTracker.get`: the record with the given id, if any. -/
def trackerGet (store : List IssueRec) (id : Nat) : Option IssueRec :=
  store.find? (fun i => i.id == id)

/-- The method `IssueTracker.update` restricted to a status update, which
is exactly `IssueTracker.updateStatus`: look the issue up; if absent return
`none` and leave the store unchanged; otherwise overwrite the record with
the new status and return it.  No transition check is performed. -/
def trackerUpdateStatus (store : List IssueRec) (id : Nat)
    (status : IssueStatus) : List IssueRec × Option IssueRec :=
  match trackerGet store id with
  | none => (store, none)
  | some i =>
    let u : IssueRec := { i with status := status }
    ((store.map fun j => if j.id == id then u else j), some u)

/-- Operations on the issue store, for stating id-assignment properties
over arbitrary create/delete sequences. -/
inductive TrackerOp
  | create
  | delete (id : Nat)

/-- Runs a sequence of create/delete operations from a store, returning the
final store together with the ids assigned by the create operations, in
order. -/
def runTrackerOps (store : List IssueRec) :
    List TrackerOp → List IssueRec × List Nat
  | [] => (store, [])
  | .create :: ops =>
    let (s, id) := trackerCreate store .medium
    let (s2, ids) := runTrackerOps s ops
    (s2, id :: ids)
  | .delete id :: ops =>
    runTrackerOps (trackerDelete store id) ops

/-- Ids assigned by a sequence of operations starting from the empty
store. -/
def assignedIds (ops : List TrackerOp) : List Nat :=
  (runTrackerOps [] ops).2

/-! ## Theorems for claims C3 and C9 -/

/-- C3, counterexample evidence: the transition graph of `canTransition` is
exactly the one the claim states, `open → done` is not a legal transition,
and yet `IssueTracker.updateStatus` applied to an issue in status `open`
with requested status `done` succeeds and overwrites the stored record:
`canTransition` is never consulted by the tracker, so illegal transitions
are not rejected and the record is mutated. -/
theorem c3_updateStatus_ignores_transition_graph :
    (∀ s t : IssueStatus, canTransition s t = true ↔
      (s, t) ∈ [
        (IssueStatus.«open», IssueStatus.in_progress),
        (IssueStatus.«open», IssueStatus.blocked),
        (IssueStatus.in_progress, IssueStatus.review),
        (IssueStatus.in_progress, IssueStatus.blocked),
        (IssueStatus.in_progress, IssueStatus.«open»),
        (IssueStatus.review, IssueStatus.done),
        (IssueStatus.review, IssueStatus.in_progress),
        (IssueStatus.review, IssueStatus.«open»),
        (IssueStatus.blocked, IssueStatus.«open»),
        (IssueStatus.blocked, IssueStatus.in_progress),
        (IssueStatus.done, IssueStatus.«open»)]) ∧
    canTransition .«open» .done = false ∧
    trackerUpdateStatus [⟨1, .«open», .medium⟩] 1 .done =
      ([⟨1, .done, .medium⟩], some ⟨1, .done, .medium⟩) := by
  refine ⟨?_, by decide, by decide⟩
  decide

/-- C9, counterexample: after creating issues 1 and 2 and deleting issue 2,
the next create assigns id 2 again, so the sequence of assigned ids is
`[1, 2, 2]` and a newly created issue does not receive an id strictly
greater than every previously assigned id. -/
theorem c9_id_reassigned_after_delete :
    assignedIds [.create, .create, .delete 2, .create] = [1, 2, 2] ∧
    ¬ (assignedIds [.create, .create, .delete 2, .create]).Pairwise
        (· < ·) := by
  constructor
  · rfl
  · decide

theorem mem_le_foldr_max (l : List Nat) (x : Nat) (hx : x ∈ l) :
    x ≤ l.foldr Nat.max 0 := by
  induction l with
  | nil => cases hx
  | cons a l ih =>
    rcases List.mem_cons.mp hx with h | h
    · subst h; exact Nat.le_max_left _ _
    · exact le_trans (ih h) (Nat.le_max_right _ _)

/-- C9 as amended: a newly created issue always receives an id strictly
greater than every id currently present in the store (`getNextId` is one
more than the maximum existing id), so ids grow monotonically as long as
the issue with the largest id is never deleted. -/
theorem c9_amended_getNextId_gt_existing (store : List IssueRec)
    (i : IssueRec) (hi : i ∈ store) : i.id < getNextId store := by
  unfold getNextId
  have hne : ¬ store.isEmpty := by
    cases store with
    | nil => cases hi
    | cons a l => simp [List.isEmpty]
  rw [if_neg hne]
  have : i.id ∈ store.map (·.id) := List.mem_map_of_mem _ hi
  exact Nat.lt_succ_of_le (mem_le_foldr_max _ _ this)

/-- Witness for the amended C9 at a concrete store. -/
theorem c9_amended_witness :
    (⟨2, .«open», .high⟩ : IssueRec) ∈
      [(⟨1, .done, .medium⟩ : IssueRec), ⟨2, .«open», .high⟩] ∧
    (2 : Nat) < getNextId [⟨1, .done, .medium⟩, ⟨2, .«open», .high⟩] := by
  refine ⟨by decide, ?_⟩
  exact c9_amended_getNextId_gt_existing _ ⟨2, .«open», .high⟩ (by decide)

/-! ## Endpoint router selection (`src/llm/router.ts`) -/

/-- The per-endpoint state held by `LlmRouter` (`EndpointState` in
`src/llm/router.ts`), with the `config` fields (`name`, `weight`,
`maxConcurrent`) inlined. -/
structure EndpointState where
  name : String
  weight : Nat
  maxConcurrent : Nat
  healthy : Bool
  currentRequests : Nat
  weightCounter : Nat
deriving DecidableEq, Repr

/-- The availability predicate of `LlmRouter.selectEndpoint`: healthy and
below the configured max concurrency. -/
def isAvailable (ep : EndpointState) : Bool :=
  ep.healthy && decide (ep.currentRequests < ep.maxConcurrent)

/-- The selection scan of `LlmRouter.selectEndpoint`: walk the endpoint
list in registration order and keep the first available endpoint whose
`weightCounter` is strictly below the best seen so far (so ties keep the
earlier endpoint).  The accumulator carries the index and counter of the
current best.  Scanning the full list while testing availability per
element is equivalent to the source's `filter` followed by the `for` loop,
since `filter` preserves order. -/
def bestAvailableAux : List EndpointState → Nat → Option (Nat × Nat) →
    Option Nat
  | [], _, best => best.map Prod.fst
  | ep :: rest, i, best =>
    if isAvailable ep && (match best with
        | none => true
        | some b => decide (ep.weightCounter < b.2)) then
      bestAvailableAux rest (i + 1) (some (i, ep.weightCounter))
    else
      bestAvailableAux rest (i + 1) best

/-- Index (in registration order) of the endpoint `LlmRouter.selectEndpoint`
picks, if any endpoint is available. -/
def bestAvailableIdx (eps : List EndpointState) : Option Nat :=
  bestAvailableAux eps 0 none

/-- Increment the weight counter of the endpoint at index `i`
(`best.weightCounter++`). -/
def bumpCounterAt (eps : List EndpointState) (i : Nat) : List EndpointState :=
  eps.enum.map fun p =>
    if p.1 = i then { p.2 with weightCounter := p.2.weightCounter + 1 }
    else p.2

/-- The method `LlmRouter.selectEndpoint`: pick the available endpoint with
the lowest weight counter (ties by registration order), increment its
counter, and reset every counter to zero when the picked endpoint has
reached its weight and every available endpoint has reached its own weight.
The source reads `available.every(...)` after the in-place increment, and
availability does not depend on the counter, so the reset test is evaluated
on the updated list.  Returns the picked index and the updated endpoint
list. -/
def selectEndpoint (eps : List EndpointState) :
    Option Nat × List EndpointState :=
  match bestAvailableIdx eps with
  | none => (none, eps)
  | some i =>
    let eps1 := bumpCounterAt eps i
    let reset :=
      match eps1.get? i with
      | some b =>
        decide (b.weight ≤ b.weightCounter) &&
          (eps1.filter isAvailable).all fun ep =>
            decide (ep.weight ≤ ep.weightCounter)
      | none => false
    if reset then (some i, eps1.map fun ep => { ep with weightCounter := 0 })
    else (some i, eps1)

/-- Iterated selection: the picked indices of `n` consecutive calls to
`selectEndpoint`, with the endpoint state threaded through. -/
def selectN : Nat → List EndpointState → List (Option Nat) × List EndpointState
  | 0, eps => ([], eps)
  | n + 1, eps =>
    let r := selectEndpoint eps
    let rs := selectN n r.2
    (r.1 :: rs.1, rs.2)

/-- Endpoint A of the spec scenario: weight 3, healthy, effectively
unlimited capacity. -/
def epA : EndpointState := ⟨"A", 3, 1000000, true, 0, 0⟩

/-- Endpoint B of the spec scenario: weight 1, healthy, effectively
unlimited capacity. -/
def epB : EndpointState := ⟨"B", 1, 1000000, true, 0, 0⟩

/-- C2, divergence evidence: with endpoints A (weight 3, index 0) and B
(weight 1, index 1), both healthy with ample capacity, the four consecutive
selections computed by `selectEndpoint` are A, B, A, B — not the claimed
A, A, A, B.  The first reset happens after the fifth selection (one full
cycle), during which A is selected 3 times but B twice, so B receives more
selections than its configured weight. -/
theorem c2_selection_diverges_from_claim :
    (selectN 4 [epA, epB]).1 = [some 0, some 1, some 0, some 1] ∧
    (selectN 4 [epA, epB]).1 ≠ [some 0, some 0, some 0, some 1] ∧
    (selectN 5 [epA, epB]).1.count (some 0) = 3 ∧
    (selectN 5 [epA, epB]).1.count (some 1) = 2 ∧
    (selectN 5 [epA, epB]).2.map (·.weightCounter) = [0, 0] := by
  refine ⟨by decide, by decide, by decide, by decide, by decide⟩

/-! ## Turn-loop repeated-tool-call guard (`Manager.processChat`) -/

/-- A requested tool call: name and serialized arguments (the source builds
the signature from `b.name` and `JSON.stringify(b.input)`). -/
structure ToolCall where
  name : String
  args : String
deriving DecidableEq, Repr

/-- The batch signature of `Manager.processChat`:
`toolUseBlocks.map(b => name + ':' + JSON.stringify(input)).join('|')`. -/
def computeSig (batch : List ToolCall) : String :=
  String.intercalate "|" (batch.map fun b => b.name ++ ":" ++ b.args)

/-- The ad hoc repeat-detection state `Manager._lastToolSig` /
`Manager._repeatCount` (persisted on the manager across iterations and
turns). -/
structure RepeatGuard where
  lastToolSig : Option String
  repeatCount : Nat
deriving DecidableEq, Repr

/-- One evaluation of the guard in `Manager.processChat`: bump the repeat
count if the signature equals the previous one, else reset it to zero;
record the signature; abort (returning `true`) when the count has reached
3, zeroing the count as the source does. -/
def guardStep (g : RepeatGuard) (sig : String) : RepeatGuard × Bool :=
  let cnt := if g.lastToolSig = some sig then g.repeatCount + 1 else 0
  if 3 ≤ cnt then ({ lastToolSig := some sig, repeatCount := 0 }, true)
  else ({ lastToolSig := some sig, repeatCount := cnt }, false)

/-- Why a turn stopped early. -/
inductive TurnAbort
  | iterationCap
  | repeatedToolCall
deriving DecidableEq, Repr

/-- The tool-iteration skeleton of `Manager.processChat`, driven by the
sequence of tool-call batches the model requests (one batch per loop
iteration; iterations without tool use end the turn and are not modelled).
`maxIter` is `MAX_TOOL_ITERATIONS` (`none` in yolo mode, where the cap is
`Infinity`); `iter` is the running iteration count.  Each iteration first
checks the cap, then the repeat guard; only if neither fires is the batch
executed.  Returns the batches actually executed, in order, and the abort
cause if the turn was aborted. -/
def runToolLoop (maxIter : Option Nat) :
    Nat → RepeatGuard → List (List ToolCall) →
    List (List ToolCall) × Option TurnAbort
  | _, _, [] => ([], none)
  | iter, g, batch :: rest =>
    let it := iter + 1
    if (match maxIter with | some m => decide (m < it) | none => false) then
      ([], some .iterationCap)
    else
      let s := guardStep g (computeSig batch)
      if s.2 then ([], some .repeatedToolCall)
      else
        let r := runToolLoop maxIter it s.1 rest
        (batch :: r.1, r.2)

theorem guardStep_fresh (g : RepeatGuard) (sig : String)
    (h : g.lastToolSig ≠ some sig) :
    guardStep g sig = ({ lastToolSig := some sig, repeatCount := 0 }, false) := by
  simp [guardStep, h]

theorem guardStep_repeat (g : RepeatGuard) (sig : String)
    (h : g.lastToolSig = some sig) (hc : g.repeatCount + 1 < 3) :
    guardStep g sig =
      ({ lastToolSig := some sig, repeatCount := g.repeatCount + 1 }, false) := by
  simp [guardStep, h, Nat.not_le.mpr hc]

theorem guardStep_abort (g : RepeatGuard) (sig : String)
    (h : g.lastToolSig = some sig) (hc : 3 ≤ g.repeatCount + 1) :
    guardStep g sig =
      ({ lastToolSig := some sig, repeatCount := 0 }, true) := by
  simp [guardStep, h, hc]

/-- C5: in any turn whose iteration cap is absent or at least four
iterations away, if the model requests the same tool-call batch in four
consecutive iterations (the batch is fresh at the first of them), the batch
is executed exactly three times and the turn is aborted with the
repeated-tool-call error at the fourth iteration, before a fourth
execution; whatever batches would follow are never reached.  Moreover
three consecutive identical batches alone do not abort the turn. -/
theorem c5_repeated_batch_aborts_before_fourth_execution
    (maxIter : Option Nat) (iter : Nat) (g : RepeatGuard)
    (batch : List ToolCall) (rest : List (List ToolCall))
    (hcap : ∀ m, maxIter = some m → iter + 4 ≤ m)
    (hfresh : g.lastToolSig ≠ some (computeSig batch)) :
    runToolLoop maxIter iter g (batch :: batch :: batch :: batch :: rest) =
      ([batch, batch, batch], some .repeatedToolCall) ∧
    runToolLoop maxIter iter g [batch, batch, batch] =
      ([batch, batch, batch], none) := by
  have hlt : ∀ k, 1 ≤ k → k ≤ 4 →
      (match maxIter with | some m => decide (m < iter + k) | none => false) = false := by
    intro k hk1 hk4
    cases maxIter with
    | none => rfl
    | some m =>
      have := hcap m rfl
      simp only [decide_eq_false_iff_not, Nat.not_lt]
      omega
  have h1 := hlt 1 (by omega) (by omega)
  have h2 := hlt 2 (by omega) (by omega)
  have h3 := hlt 3 (by omega) (by omega)
  have h4 := hlt 4 (by omega) (by omega)
  have hg1 := guardStep_fresh g (computeSig batch) hfresh
  have hg2 := guardStep_repeat
    { lastToolSig := some (computeSig batch), repeatCount := 0 }
    (computeSig batch) rfl (by simp)
  have hg3 := guardStep_repeat
    { lastToolSig := some (computeSig batch), repeatCount := 1 }
    (computeSig batch) rfl (by simp)
  have hg4 := guardStep_abort
    { lastToolSig := some (computeSig batch), repeatCount := 2 }
    (computeSig batch) rfl (by simp)
  have e2 : iter + 1 + 1 = iter + 2 := by omega
  have e3 : iter + 2 + 1 = iter + 3 := by omega
  have e4 : iter + 3 + 1 = iter + 4 := by omega
  constructor
  · simp [runToolLoop, e2, e3, e4, h1, h2, h3, h4, hg1, hg2, hg3, hg4]
  · simp [runToolLoop, e2, e3, h1, h2, h3, hg1, hg2, hg3]

/-- Witness for C5 at a concrete fresh manager state and batch. -/
theorem c5_witness :
    runToolLoop (some 25) 0 ⟨none, 0⟩
      [[⟨"list_issues", "\x7b\x7d"⟩], [⟨"list_issues", "\x7b\x7d"⟩],
       [⟨"list_issues", "\x7b\x7d"⟩], [⟨"list_issues", "\x7b\x7d"⟩]] =
      ([[⟨"list_issues", "\x7b\x7d"⟩], [⟨"list_issues", "\x7b\x7d"⟩],
        [⟨"list_issues", "\x7b\x7d"⟩]], some .repeatedToolCall) :=
  (c5_repeated_batch_aborts_before_fourth_execution (some 25) 0 ⟨none, 0⟩
    [⟨"list_issues", "\x7b\x7d"⟩] []
    (by intro m hm; cases hm; omega)
    (by simp)).1

/-! ## Worker scheduler (`Manager.spawnWorker` / `Manager.drainWorkerQueue`)

The scheduler slice of the Manager is modelled as a transition system.  A
state carries the ids of the workers whose status is `running`, the pending
`workerQueue`, the configured `worker.maxConcurrent`, and a logical clock
standing for the `queuedAt` timestamps (each enqueued entry receives a
strictly larger stamp than all earlier ones, as `new Date()` does for the
sequential enqueue operations of the single-threaded manager).  Events are
the entry points that touch this state: a `spawn_worker` tool call, a
worker reaching a terminal state (whose completion callback drains the
queue), and a `reprioritize` tool call, which overwrites a queued entry's
priority in place and re-sorts the queue.  Launching can fail (missing
issue, worktree error, no healthy endpoint); a launch outcome is an oracle
`Bool`, `true` exactly when the worker ends up running. -/

/-- The `PRIORITY_ORDER` table of `src/agents/manager.ts`. -/
def priorityOrder : IssuePriority → Nat
  | .high => 0
  | .medium => 1
  | .low => 2

/-- A `QueuedWorker` entry of `src/agents/manager.ts`; `queuedAt` is the
logical arrival stamp. -/
structure QueuedWorker where
  issueId : String
  priority : IssuePriority
  queuedAt : Nat
deriving DecidableEq, Repr

/-- Stable insertion of one entry into a queue sorted by priority rank: the
entry goes before the first strictly lower-priority entry, hence after all
entries of equal rank that are already present. -/
def insertByPriority (x : QueuedWorker) : List QueuedWorker → List QueuedWorker
  | [] => [x]
  | y :: ys =>
    if priorityOrder x.priority ≤ priorityOrder y.priority then x :: y :: ys
    else y :: insertByPriority x ys

/-- The queue re-sort
`workerQueue.sort((a, b) => PRIORITY_ORDER[a.priority] - PRIORITY_ORDER[b.priority])`
of `src/agents/manager.ts`.  `Array.prototype.sort` is stable per the
ECMAScript specification, so it is embedded as a stable insertion sort by
priority rank. -/
def sortQueue : List QueuedWorker → List QueuedWorker
  | [] => []
  | x :: xs => insertByPriority x (sortQueue xs)

/-- Scheduler state of the Manager. -/
structure SchedState where
  running : List String
  workerQueue : List QueuedWorker
  maxConcurrent : Nat
  nextArrival : Nat

/-- Scheduler events.  For `spawn`, `issueExists` is the outcome of the
initial `tracker.get` lookup and `launchOk` whether `launchWorker` ends
with a running worker.  For `finish`, `launchOk` gives the launch outcome
of each issue the queue drain attempts to start.  For `reprioritize`,
`issueExists` is the outcome of the `tracker.update` call that precedes
the queue re-sort. -/
inductive SchedEvent
  | spawn (issueId : String) (priority : IssuePriority)
      (issueExists : Bool) (launchOk : Bool)
  | finish (issueId : String) (launchOk : String → Bool)
  | reprioritize (issueId : String) (priority : IssuePriority)
      (issueExists : Bool)

/-- The in-place mutation `this.workerQueue[queueIdx].priority = priority`
of the `reprioritize` handler: `findIndex` locates the first queue entry
for the issue and only its `priority` field is overwritten (`queuedAt` is
left untouched). -/
def setPriorityFirst (id : String) (pr : IssuePriority) :
    List QueuedWorker → List QueuedWorker
  | [] => []
  | q :: rest =>
    if q.issueId = id then { q with priority := pr } :: rest
    else q :: setPriorityFirst id pr rest

/-- The loop body of `Manager.drainWorkerQueue`: while the queue is
nonempty and the running count is below the cap, pop the head and launch it
(an entry whose issue vanished or whose launch fails is dropped and the
loop continues).  Returns the updated running list and the remaining
queue. -/
def drainAux (ok : String → Bool) (maxC : Nat) :
    List QueuedWorker → List String → List String × List QueuedWorker
  | [], running => (running, [])
  | q :: rest, running =>
    if maxC ≤ running.length then (running, q :: rest)
    else
      drainAux ok maxC rest
        (if ok q.issueId then running ++ [q.issueId] else running)

/-- One scheduler transition.  `spawn` follows `Manager.spawnWorker`:
reject when the issue is unknown, already running, or already queued; when
the running count has reached `maxConcurrent`, append a `QueuedWorker`
entry and re-sort the queue by priority; otherwise launch immediately.
`finish` follows the worker completion callback: the worker leaves the
running set and `drainWorkerQueue` runs.  `reprioritize` follows the
`reprioritize` tool handler: when the tracker update succeeds and the
issue is queued, the queued entry's priority is overwritten in place and
the queue re-sorted by priority rank. -/
def schedStep (st : SchedState) : SchedEvent → SchedState
  | .spawn id pr issueExists ok =>
    if issueExists = false then st
    else if st.running.contains id then st
    else if (st.workerQueue.map (·.issueId)).contains id then st
    else if st.maxConcurrent ≤ st.running.length then
      { st with
        workerQueue :=
          sortQueue (st.workerQueue ++ [⟨id, pr, st.nextArrival⟩]),
        nextArrival := st.nextArrival + 1 }
    else if ok then { st with running := st.running ++ [id] }
    else st
  | .finish id ok =>
    let d := drainAux ok st.maxConcurrent st.workerQueue (st.running.erase id)
    { st with running := d.1, workerQueue := d.2 }
  | .reprioritize id pr issueExists =>
    if issueExists = false then st
    else if (st.workerQueue.map (·.issueId)).contains id then
      { st with
        workerQueue := sortQueue (setPriorityFirst id pr st.workerQueue) }
    else st

/-- Discriminates the `reprioritize` entry point from the spawn/finish
events. -/
def isReprioritize : SchedEvent → Bool
  | .reprioritize _ _ _ => true
  | _ => false

/-- A whole execution of the scheduler. -/
def schedRun (st : SchedState) : List SchedEvent → SchedState
  | [] => st
  | e :: es => schedRun (schedStep st e) es

/-- The concurrency-cap invariant of claim C4. -/
def capInv (st : SchedState) : Prop :=
  st.running.length ≤ st.maxConcurrent

/-- Rank comparison used by the queue sort. -/
def rankLe (a b : QueuedWorker) : Prop :=
  priorityOrder a.priority ≤ priorityOrder b.priority

/-- Arrival-order tie-break: entries of equal rank appear in arrival
order. -/
def stableBefore (a b : QueuedWorker) : Prop :=
  priorityOrder a.priority = priorityOrder b.priority → a.queuedAt < b.queuedAt

/-- The dequeue order claimed by C7: strictly by priority rank, then by
arrival. -/
def queueOrdered (a b : QueuedWorker) : Prop :=
  priorityOrder a.priority < priorityOrder b.priority ∨
    (priorityOrder a.priority = priorityOrder b.priority ∧
      a.queuedAt < b.queuedAt)

instance (a b : QueuedWorker) : Decidable (queueOrdered a b) := by
  unfold queueOrdered
  infer_instance

/-- The queue invariant of claim C7: the queue is sorted front-to-back by
`queueOrdered`, and every stamp in it is below the clock. -/
def queueInv (st : SchedState) : Prop :=
  st.workerQueue.Pairwise queueOrdered ∧
    ∀ q ∈ st.workerQueue, q.queuedAt < st.nextArrival

theorem insertByPriority_perm (x : QueuedWorker) (l : List QueuedWorker) :
    List.Perm (insertByPriority x l) (x :: l) := by
  induction l with
  | nil => simp [insertByPriority]
  | cons y ys ih =>
    by_cases h : priorityOrder x.priority ≤ priorityOrder y.priority
    · simp [insertByPriority, h]
    · simp only [insertByPriority, if_neg h]
      exact (ih.cons y).trans (List.Perm.swap x y ys)

theorem sortQueue_perm (l : List QueuedWorker) : List.Perm (sortQueue l) l := by
  induction l with
  | nil => simp [sortQueue]
  | cons x xs ih =>
    exact (insertByPriority_perm x (sortQueue xs)).trans (ih.cons x)

theorem pairwise_rankLe_insert (x : QueuedWorker) (l : List QueuedWorker)
    (hl : l.Pairwise rankLe) : (insertByPriority x l).Pairwise rankLe := by
  induction l with
  | nil => simp [insertByPriority, rankLe]
  | cons y ys ih =>
    rcases List.pairwise_cons.mp hl with ⟨hy, hys⟩
    by_cases h : priorityOrder x.priority ≤ priorityOrder y.priority
    · simp only [insertByPriority, if_pos h]
      refine List.pairwise_cons.mpr ⟨?_, hl⟩
      intro z hz
      rcases List.mem_cons.mp hz with rfl | hz
      · exact h
      · exact le_trans h (hy z hz)
    · simp only [insertByPriority, if_neg h]
      refine List.pairwise_cons.mpr ⟨?_, ih hys⟩
      intro z hz
      rcases List.mem_cons.mp
          ((insertByPriority_perm x ys).mem_iff.mp hz) with rfl | hz
      · exact le_of_not_le h
      · exact hy z hz

theorem pairwise_stable_insert (x : QueuedWorker) (l : List QueuedWorker)
    (hl : l.Pairwise stableBefore) (hx : ∀ y ∈ l, stableBefore x y) :
    (insertByPriority x l).Pairwise stableBefore := by
  induction l with
  | nil => simp [insertByPriority]
  | cons y ys ih =>
    rcases List.pairwise_cons.mp hl with ⟨hy, hys⟩
    by_cases h : priorityOrder x.priority ≤ priorityOrder y.priority
    · simp only [insertByPriority, if_pos h]
      refine List.pairwise_cons.mpr ⟨?_, hl⟩
      intro z hz
      rcases List.mem_cons.mp hz with rfl | hz
      · exact hx z (List.mem_cons_self _ _)
      · exact hx z (List.mem_cons_of_mem _ hz)
    · simp only [insertByPriority, if_neg h]
      refine List.pairwise_cons.mpr
        ⟨?_, ih hys fun z hz => hx z (List.mem_cons_of_mem _ hz)⟩
      intro z hz
      rcases List.mem_cons.mp
          ((insertByPriority_perm x ys).mem_iff.mp hz) with rfl | hz
      · intro heq
        exact absurd heq (ne_of_lt (lt_of_not_le h))
      · exact hy z hz

theorem pairwise_rankLe_sortQueue (l : List QueuedWorker) :
    (sortQueue l).Pairwise rankLe := by
  induction l with
  | nil => simp [sortQueue]
  | cons x xs ih => exact pairwise_rankLe_insert x (sortQueue xs) ih

theorem pairwise_stable_sortQueue (l : List QueuedWorker)
    (hl : l.Pairwise stableBefore) :
    (sortQueue l).Pairwise stableBefore := by
  induction l with
  | nil => simp [sortQueue]
  | cons x xs ih =>
    rcases List.pairwise_cons.mp hl with ⟨hx, hxs⟩
    refine pairwise_stable_insert x (sortQueue xs) (ih hxs) ?_
    intro y hy
    exact hx y ((sortQueue_perm xs).mem_iff.mp hy)

theorem sortQueue_ordered (l : List QueuedWorker)
    (hl : l.Pairwise stableBefore) :
    (sortQueue l).Pairwise queueOrdered := by
  refine ((pairwise_rankLe_sortQueue l).and
    (pairwise_stable_sortQueue l hl)).imp ?_
  rintro a b ⟨hle, hst⟩
  rcases lt_or_eq_of_le hle with hlt | heq
  · exact Or.inl hlt
  · exact Or.inr ⟨heq, hst heq⟩

theorem drainAux_running_le (ok : String → Bool) (maxC : Nat) :
    ∀ (queue : List QueuedWorker) (running : List String),
      running.length ≤ maxC →
      (drainAux ok maxC queue running).1.length ≤ maxC := by
  intro queue
  induction queue with
  | nil => intro running h; exact h
  | cons q rest ih =>
    intro running h
    by_cases hc : maxC ≤ running.length
    · simpa [drainAux, hc] using h
    · simp only [drainAux, if_neg hc]
      apply ih
      by_cases ho : ok q.issueId
      · simp only [ho, if_pos]
        have : running.length < maxC := Nat.lt_of_not_le hc
        simpa using this
      · simpa [ho] using h

theorem drainAux_queue_suffix (ok : String → Bool) (maxC : Nat) :
    ∀ (queue : List QueuedWorker) (running : List String),
      (drainAux ok maxC queue running).2 <:+ queue := by
  intro queue
  induction queue with
  | nil => intro running; exact List.nil_suffix
  | cons q rest ih =>
    intro running
    by_cases hc : maxC ≤ running.length
    · simp [drainAux, hc]
    · simp only [drainAux, if_neg hc]
      exact (ih _).trans (List.suffix_cons q rest)

theorem capInv_schedStep (st : SchedState) (e : SchedEvent)
    (h : capInv st) : capInv (schedStep st e) := by
  cases e with
  | spawn id pr issueExists ok =>
    simp only [schedStep]
    split
    · exact h
    · split
      · exact h
      · split
        · exact h
        · split
          · simpa [capInv] using h
          · split
            · rename_i h1 h2 h3 h4 h5
              simp only [capInv, List.length_append, List.length_singleton]
              omega
            · exact h
  | finish id ok =>
    simp only [schedStep, capInv]
    exact drainAux_running_le ok st.maxConcurrent st.workerQueue _
      (le_trans (List.Sublist.length_le (List.erase_sublist _ _)) h)
  | reprioritize id pr issueExists =>
    simp only [schedStep]
    split
    · exact h
    · split
      · exact h
      · exact h

theorem queueInv_schedStep (st : SchedState) (e : SchedEvent)
    (hne : isReprioritize e = false) (h : queueInv st) :
    queueInv (schedStep st e) := by
  obtain ⟨hord, hbound⟩ := h
  cases e with
  | spawn id pr issueExists ok =>
    simp only [schedStep]
    split
    · exact ⟨hord, hbound⟩
    · split
      · exact ⟨hord, hbound⟩
      · split
        · exact ⟨hord, hbound⟩
        · split
          · constructor
            · apply sortQueue_ordered
              refine List.pairwise_append.mpr ⟨?_, ?_, ?_⟩
              · refine hord.imp ?_
                rintro a b (hlt | ⟨heq, harr⟩)
                · intro he; exact absurd he (ne_of_lt hlt)
                · intro _; exact harr
              · simp
              · intro a ha b hb _
                rcases List.mem_singleton.mp hb with rfl
                exact hbound a ha
            · intro q hq
              rcases List.mem_append.mp
                  ((sortQueue_perm _).mem_iff.mp hq) with hq2 | hq2
              · exact lt_trans (hbound q hq2) (Nat.lt_succ_self _)
              · have hqe : q = ⟨id, pr, st.nextArrival⟩ :=
                  List.mem_singleton.mp hq2
                rw [hqe]
                exact Nat.lt_succ_self _
          · split
            · exact ⟨hord, hbound⟩
            · exact ⟨hord, hbound⟩
  | finish id ok =>
    simp only [schedStep]
    constructor
    · exact List.Pairwise.sublist (drainAux_queue_suffix ok st.maxConcurrent
        st.workerQueue (st.running.erase id)).sublist hord
    · intro q hq
      exact hbound q ((drainAux_queue_suffix ok st.maxConcurrent
        st.workerQueue (st.running.erase id)).sublist.subset hq)
  | reprioritize id pr issueExists => simp [isReprioritize] at hne

theorem capInv_schedRun (st : SchedState) (evs : List SchedEvent)
    (h : capInv st) : capInv (schedRun st evs) := by
  induction evs generalizing st with
  | nil => exact h
  | cons e es ih => exact ih _ (capInv_schedStep st e h)

theorem queueInv_schedRun (st : SchedState) (evs : List SchedEvent)
    (hne : ∀ e ∈ evs, isReprioritize e = false) (h : queueInv st) :
    queueInv (schedRun st evs) := by
  induction evs generalizing st with
  | nil => exact h
  | cons e es ih =>
    exact ih _ (fun x hx => hne x (List.mem_cons_of_mem _ hx))
      (queueInv_schedStep st e (hne e (List.mem_cons_self _ _)) h)

/-- C4: starting from any scheduler state within the concurrency cap,
every state reached by any sequence of spawn/finish/reprioritize events
keeps the number of running workers at or below `maxConcurrent` (so the
bound holds
at every point of every execution, including after each queue drain, where
entries are launched only while capacity remains); and a spawn request for
a known, not-running, not-yet-queued issue that arrives while the count is
at the cap leaves the running set unchanged and appends the issue to the
worker queue instead of dropping it. -/
theorem c4_running_bounded_overflow_queued :
    (∀ (st : SchedState) (evs : List SchedEvent),
      capInv st → capInv (schedRun st evs)) ∧
    (∀ (st : SchedState) (id : String) (pr : IssuePriority) (ok : Bool),
      st.maxConcurrent ≤ st.running.length →
      st.running.contains id = false →
      (st.workerQueue.map (·.issueId)).contains id = false →
      (schedStep st (.spawn id pr true ok)).running = st.running ∧
        id ∈ (schedStep st (.spawn id pr true ok)).workerQueue.map
          (·.issueId)) := by
  constructor
  · exact capInv_schedRun
  · intro st id pr ok hcap hrun hque
    have hstep : schedStep st (.spawn id pr true ok) =
        { st with
          workerQueue :=
            sortQueue (st.workerQueue ++ [⟨id, pr, st.nextArrival⟩]),
          nextArrival := st.nextArrival + 1 } := by
      simp only [schedStep, hrun, hque, if_pos hcap]
      simp
    rw [hstep]
    refine ⟨rfl, ?_⟩
    refine List.mem_map.mpr ⟨⟨id, pr, st.nextArrival⟩, ?_, rfl⟩
    exact (sortQueue_perm _).mem_iff.mpr
      (List.mem_append.mpr (Or.inr (List.mem_singleton.mpr rfl)))

/-- Witness for C4 at concrete states: two spawns against a cap of 1 keep
one worker running, and a spawn at the cap is queued, not dropped. -/
theorem c4_witness :
    capInv (schedRun ⟨[], [], 1, 0⟩
      [.spawn "001" .high true true, .spawn "002" .low true true]) ∧
    ((schedStep ⟨["001"], [], 1, 5⟩
        (.spawn "002" .low true true)).running = ["001"] ∧
      "002" ∈ (schedStep ⟨["001"], [], 1, 5⟩
        (.spawn "002" .low true true)).workerQueue.map (·.issueId)) :=
  ⟨c4_running_bounded_overflow_queued.1 ⟨[], [], 1, 0⟩ _ (by simp [capInv]),
    c4_running_bounded_overflow_queued.2 ⟨["001"], [], 1, 5⟩ "002" .low true
      (by decide) (by decide) (by decide)⟩

/-- C7, refutation: the `reprioritize` entry point breaks the
arrival-order tie-break the claim asserts.  Concrete reachable trace with
`maxConcurrent = 1`: issue #3 runs; #1 (low) is queued at stamp 0, then
#2 (high) at stamp 1, so the queue is [#2 high, #1 low]; `reprioritize`
lowers #2 to low — the in-place update keeps #2's position and the
priority-only stable sort leaves [#2 low, #1 low] although #1 arrived
first at now-equal priority, so a reachable queue violates the claimed
order; when #3 finishes, the drain launches #2 while the earlier-arrived
equal-priority #1 stays queued. -/
theorem c7_reprioritize_breaks_fifo :
    (schedRun ⟨[], [], 1, 0⟩
        [.spawn "3" .medium true true, .spawn "1" .low true true,
          .spawn "2" .high true true,
          .reprioritize "2" .low true]).workerQueue =
      [⟨"2", .low, 1⟩, ⟨"1", .low, 0⟩] ∧
    ¬ (schedRun ⟨[], [], 1, 0⟩
        [.spawn "3" .medium true true, .spawn "1" .low true true,
          .spawn "2" .high true true,
          .reprioritize "2" .low true]).workerQueue.Pairwise queueOrdered ∧
    (schedRun ⟨[], [], 1, 0⟩
        [.spawn "3" .medium true true, .spawn "1" .low true true,
          .spawn "2" .high true true, .reprioritize "2" .low true,
          .finish "3" (fun _ => true)]).running = ["2"] ∧
    (schedRun ⟨[], [], 1, 0⟩
        [.spawn "3" .medium true true, .spawn "1" .low true true,
          .spawn "2" .high true true, .reprioritize "2" .low true,
          .finish "3" (fun _ => true)]).workerQueue = [⟨"1", .low, 0⟩] := by
  refine ⟨by decide, by decide, by decide, by decide⟩

/-! ## Strings as character lists

JavaScript strings are modelled as lists of characters so that the string
operations of the source are executable, provable Lean functions. -/

/-- Strings of the embedded program. -/
abbrev Str := List Char

/-- JavaScript line terminators, the characters excluded by `.` in a
regular expression: LF, CR, U+2028, U+2029. -/
def isLineTerm (c : Char) : Bool :=
  c == '\n' || c == '\r' || c == '\u2028' || c == '\u2029'

/-- The ECMAScript WhiteSpace characters (the non-line-terminator part of
the `\s` class and of `String.prototype.trim`). -/
def isJsSpaceChar (c : Char) : Bool :=
  c == ' ' || c == '\t' || c == '\x0b' || c == '\x0c' || c == '\u00A0' ||
    c == '\u1680' || ('\u2000' ≤ c && c ≤ '\u200A') || c == '\u202F' ||
    c == '\u205F' || c == '\u3000' || c == '\uFEFF'

/-- The `\s` class / trim set: WhiteSpace together with LineTerminator. -/
def isJsWhitespace (c : Char) : Bool :=
  isJsSpaceChar c || isLineTerm c

/-- Leftmost occurrence index of `pat` in a string, the scan underlying
`String.prototype.includes` and the start-position search of
`String.prototype.match`. -/
def findSub (pat : Str) : Str → Option Nat
  | [] => if pat.isPrefixOf ([] : Str) then some 0 else none
  | c :: rest =>
    if pat.isPrefixOf (c :: rest) then some 0
    else (findSub pat rest).map (· + 1)

/-- The method `String.prototype.includes`. -/
def containsSub (s pat : Str) : Bool :=
  (findSub pat s).isSome

theorem not_lineTerm_of_not_ws (c : Char) (h : isJsWhitespace c = false) :
    isLineTerm c = false :=
  (Bool.or_eq_false_iff.mp h).2

theorem findSub_eq_some (pat : Str) :
    ∀ (s : Str) (n : Nat), findSub pat s = some n →
      pat.isPrefixOf (s.drop n) = true ∧
        ∀ k, k < n → pat.isPrefixOf (s.drop k) = false := by
  intro s
  induction s with
  | nil =>
    intro n h
    simp only [findSub] at h
    by_cases hp : pat.isPrefixOf ([] : Str)
    · rw [if_pos hp] at h
      cases h
      exact ⟨hp, fun k hk => absurd hk (Nat.not_lt_zero k)⟩
    · rw [if_neg hp] at h
      cases h
  | cons c rest ih =>
    intro n h
    simp only [findSub] at h
    by_cases hp : pat.isPrefixOf (c :: rest) = true
    · rw [if_pos hp] at h
      cases h
      exact ⟨hp, fun k hk => absurd hk (Nat.not_lt_zero k)⟩
    · rw [if_neg hp] at h
      rcases Option.map_eq_some'.mp h with ⟨m, hm, hn⟩
      rcases ih m hm with ⟨h1, h2⟩
      subst hn
      refine ⟨by simpa using h1, ?_⟩
      intro k hk
      cases k with
      | zero => simpa using Bool.eq_false_iff.mpr hp
      | succ j =>
        have := h2 j (Nat.lt_of_succ_lt_succ hk)
        simpa using this

theorem takeWhile_append_stop (p : Char → Bool) (xs : Str) (y : Char)
    (ys : Str) (hxs : ∀ x ∈ xs, p x = true) (hy : p y = false) :
    List.takeWhile p (xs ++ y :: ys) = xs := by
  induction xs with
  | nil => simp [List.takeWhile, hy]
  | cons a l ih =>
    have ha : p a = true := hxs a (List.mem_cons_self _ _)
    simp only [List.cons_append, List.takeWhile, ha]
    exact congrArg (List.cons a) (ih fun x hx => hxs x (List.mem_cons_of_mem _ hx))

/-! ## Worker terminal-outcome classification (`Worker.evaluateResult`) -/

/-- Worker lifecycle states (`WorkerStatus` in `src/agents/worker.ts`). -/
inductive WorkerStatus
  | idle
  | running
  | completed
  | failed
  | blocked
deriving DecidableEq, Repr

/-- The exact completion sentinel the worker subprocess emits. -/
def sentinelToken : Str := "ITHAVEBEENDONE".toList

/-- The blocked directive literal of the regex `/STATUS: BLOCKED\s*(.+)/`
and of the `includes` check. -/
def blockedDirective : Str := "STATUS: BLOCKED".toList

/-- Matching of the regex tail `\s*(.+)` against the text following the
directive literal: the greedy whitespace run backtracks from its maximal
length `k` down to the largest position at which `(.+)` can match, i.e. at
which a non-line-terminator character follows; the capture is then the
maximal run of non-line-terminator characters from that position. -/
def blockedTailAux (t : Str) : Nat → Option Str
  | 0 =>
    match t with
    | [] => none
    | c :: _ =>
      if isLineTerm c then none
      else some (t.takeWhile fun d => !(isLineTerm d))
  | k + 1 =>
    match t.drop (k + 1) with
    | [] => blockedTailAux t k
    | c :: _ =>
      if isLineTerm c then blockedTailAux t k
      else some ((t.drop (k + 1)).takeWhile fun d => !(isLineTerm d))

/-- Matching of `\s*(.+)` at the start of `t`: the greedy run starts at the
maximal whitespace prefix. -/
def blockedTailMatch (t : Str) : Option Str :=
  blockedTailAux t (t.takeWhile isJsWhitespace).length

/-- The capture group of `output.match(/STATUS: BLOCKED\s*(.+)/)`:
a JavaScript regex match starts at the leftmost position where the whole
pattern matches, so the scan advances one character at a time and succeeds
at the first position where the directive literal is a prefix and the tail
`\s*(.+)` matches after it. -/
def blockedReasonMatch : Str → Option Str
  | [] => none
  | c :: rest =>
    if blockedDirective.isPrefixOf (c :: rest) then
      match blockedTailMatch ((c :: rest).drop blockedDirective.length) with
      | some r => some r
      | none => blockedReasonMatch rest
    else blockedReasonMatch rest

/-- The terminal-status classification of `Worker.evaluateResult` (the
variant of `src/agents/worker.ts` that inspects the worker's captured
stdout; the variant reading the persisted issue file applies the same
classification to that file's content): the sentinel anywhere in the
inspected text wins; otherwise the blocked directive; otherwise exit code
0 means `completed` (the accompanying message flags the missing sentinel)
and any other exit code means `failed`.  The remaining output of
`evaluateResult` is the human-readable message. -/
def evaluateResultStatus (output : Str) (exitCode : Option Int) :
    WorkerStatus :=
  if containsSub output sentinelToken then .completed
  else if containsSub output blockedDirective then .blocked
  else if exitCode = some 0 then .completed
  else .failed

theorem isPrefixOf_append_self (p t : Str) : p.isPrefixOf (p ++ t) = true := by
  induction p with
  | nil => simp [List.isPrefixOf]
  | cons a l ih => simp [List.isPrefixOf, ih]

theorem blockedTailMatch_space (c : Char) (r post : Str)
    (hc : isJsWhitespace c = false) (hr : ∀ d ∈ r, isLineTerm d = false) :
    blockedTailMatch (' ' :: c :: (r ++ '\n' :: post)) = some (c :: r) := by
  have hsp : isJsWhitespace ' ' = true := by decide
  have hlt : isLineTerm c = false := not_lineTerm_of_not_ws c hc
  have htw : List.takeWhile isJsWhitespace (' ' :: c :: (r ++ '\n' :: post)) =
      [' '] := by
    simp only [List.takeWhile, hsp, hc]
  have htake : List.takeWhile (fun d => !(isLineTerm d))
      (c :: (r ++ '\n' :: post)) = c :: r := by
    simp only [List.takeWhile, hlt, Bool.not_false]
    rw [takeWhile_append_stop]
    · intro x hx
      simp [hr x hx]
    · simp [isLineTerm]
  have hlen : (List.takeWhile isJsWhitespace
      (' ' :: c :: (r ++ '\n' :: post))).length = 0 + 1 := by
    rw [htw]
    rfl
  have hdrop : (' ' :: c :: (r ++ '\n' :: post)).drop (0 + 1) =
      c :: (r ++ '\n' :: post) := rfl
  simp only [blockedTailMatch, hlen]
  simp only [blockedTailAux, hdrop, hlt]
  simp [htake]

theorem blockedReasonMatch_directive (t r : Str)
    (ht : blockedTailMatch t = some r) :
    blockedReasonMatch (blockedDirective ++ t) = some r := by
  have hpre : blockedDirective.isPrefixOf (blockedDirective ++ t) = true :=
    isPrefixOf_append_self _ _
  have hdrop : (blockedDirective ++ t).drop blockedDirective.length = t :=
    List.drop_left _ _
  cases hcase : blockedDirective ++ t with
  | nil =>
    exfalso
    have h1 : blockedDirective = ([] : Str) := (List.append_eq_nil.mp hcase).1
    have hne : blockedDirective ≠ ([] : Str) := by decide
    exact hne h1
  | cons a l =>
    rw [hcase] at hpre hdrop
    simp only [blockedReasonMatch, hpre, hdrop, ht]
    simp

theorem blockedReasonMatch_of_first (n : Nat) :
    ∀ (s t r : Str), s.drop n = blockedDirective ++ t →
      (∀ k, k < n → blockedDirective.isPrefixOf (s.drop k) = false) →
      blockedTailMatch t = some r →
      blockedReasonMatch s = some r := by
  induction n with
  | zero =>
    intro s t r hs hk ht
    simp only [List.drop_zero] at hs
    subst hs
    exact blockedReasonMatch_directive t r ht
  | succ m ih =>
    intro s t r hs hk ht
    cases s with
    | nil =>
      exfalso
      have h0 : blockedDirective ++ t = ([] : Str) := by
        rw [← hs]
        simp
      have h1 : blockedDirective = ([] : Str) := (List.append_eq_nil.mp h0).1
      have hne : blockedDirective ≠ ([] : Str) := by decide
      exact hne h1
    | cons c rest =>
      have h0 : blockedDirective.isPrefixOf (c :: rest) = false := by
        simpa using hk 0 (Nat.succ_pos m)
      simp only [blockedReasonMatch, h0, Bool.false_eq_true, if_neg,
        not_false_eq_true]
      refine ih rest t r (by simpa using hs) ?_ ht
      intro k hkm
      simpa using hk (k + 1) (Nat.succ_lt_succ hkm)

/-- C1: on worker process exit the terminal status computed by
`evaluateResult` is: `completed` whenever the inspected text contains the
exact sentinel `ITHAVEBEENDONE` (checked first, so it always wins);
otherwise `blocked` whenever the text contains `STATUS: BLOCKED`;
otherwise `completed` for exit code 0 (flagged as completed without
explicit signal by the message) and `failed` for any other exit code.
Moreover the blocked reason is extracted verbatim: when the first
occurrence of the directive is followed by a space and same-line free
text, the regex capture is exactly that text up to the end of the line. -/
theorem c1_evaluateResult_classification :
    (∀ (out : Str) (ec : Option Int), containsSub out sentinelToken = true →
      evaluateResultStatus out ec = .completed) ∧
    (∀ (out : Str) (ec : Option Int), containsSub out sentinelToken = false →
      containsSub out blockedDirective = true →
      evaluateResultStatus out ec = .blocked) ∧
    (∀ out : Str, containsSub out sentinelToken = false →
      containsSub out blockedDirective = false →
      evaluateResultStatus out (some 0) = .completed) ∧
    (∀ (out : Str) (ec : Option Int), containsSub out sentinelToken = false →
      containsSub out blockedDirective = false → ec ≠ some 0 →
      evaluateResultStatus out ec = .failed) ∧
    (∀ (pre r post : Str) (c : Char),
      findSub blockedDirective
          (pre ++ (blockedDirective ++ (' ' :: c :: (r ++ '\n' :: post)))) =
        some pre.length →
      isJsWhitespace c = false →
      (∀ d ∈ r, isLineTerm d = false) →
      blockedReasonMatch
          (pre ++ (blockedDirective ++ (' ' :: c :: (r ++ '\n' :: post)))) =
        some (c :: r)) := by
  refine ⟨?_, ?_, ?_, ?_, ?_⟩
  · intro out ec h
    simp [evaluateResultStatus, h]
  · intro out ec h1 h2
    simp [evaluateResultStatus, h1, h2]
  · intro out h1 h2
    simp [evaluateResultStatus, h1, h2]
  · intro out ec h1 h2 h3
    simp [evaluateResultStatus, h1, h2, h3]
  · intro pre r post c hfind hc hr
    rcases findSub_eq_some blockedDirective _ _ hfind with ⟨_, hnone⟩
    refine blockedReasonMatch_of_first pre.length _
      (' ' :: c :: (r ++ '\n' :: post)) (c :: r) ?_ hnone
      (blockedTailMatch_space c r post hc hr)
    exact List.drop_left _ _

/-- Witness for C1 on concrete outputs: each classification branch and a
verbatim blocked-reason extraction. -/
theorem c1_witness :
    evaluateResultStatus "ok ITHAVEBEENDONE".toList (some 1) = .completed ∧
    evaluateResultStatus "STATUS: BLOCKED x".toList (some 0) = .blocked ∧
    evaluateResultStatus "no signal".toList (some 0) = .completed ∧
    evaluateResultStatus "no signal".toList (some 2) = .failed ∧
    blockedReasonMatch
        ([] ++ (blockedDirective ++
          (' ' :: 'n' :: ("o credentials".toList ++ '\n' :: [])))) =
      some ('n' :: "o credentials".toList) :=
  ⟨c1_evaluateResult_classification.1 _ (some 1) (by decide),
    c1_evaluateResult_classification.2.1 _ (some 0) (by decide) (by decide),
    c1_evaluateResult_classification.2.2.1 _ (by decide) (by decide),
    c1_evaluateResult_classification.2.2.2.1 _ (some 2) (by decide)
      (by decide) (by decide),
    c1_evaluateResult_classification.2.2.2.2 [] "o credentials".toList []
      'n' (by decide) (by decide) (by decide)⟩

/-! ## Router worker-slot reservation and Manager slot bookkeeping

`Manager.launchWorker` reserves a long-lived endpoint slot before starting
a worker (`router.reserveWorkerSlot(url)`; the binding is recorded in the
`workerEndpoints` map), the completion callback releases it and deletes the
binding, and `Manager.shutdown` kills every worker and releases the slot of
every binding still present. -/

/-- Modelled from the spec: `LlmRouter.reserveWorkerSlot(url)` is called by
`Manager.launchWorker` but its definition is not among the sources (only
its callers are).  Per §4.2 "Worker slot reservation" it reserves a
long-lived capacity slot against the endpoint with the given URL,
independent of per-request accounting; the Router's per-URL reserved-slot
count is modelled as a function `String → Nat`. -/
def reserveWorkerSlot (slots : String → Nat) (url : String) : String → Nat :=
  fun u => if u = url then slots u + 1 else slots u

/-- Modelled from the spec: `LlmRouter.releaseWorkerSlot(url)`, the inverse
of `reserveWorkerSlot`, called by the worker completion callback and by
`Manager.shutdown`; it frees one reserved slot of the endpoint with the
given URL. -/
def releaseWorkerSlot (slots : String → Nat) (url : String) : String → Nat :=
  fun u => if u = url then slots u - 1 else slots u

/-- `Map.prototype.set` on the `workerEndpoints` map (issueId → URL):
overwrite the existing binding or append a new one. -/
def mapSet (m : List (String × String)) (id url : String) :
    List (String × String) :=
  if m.any (fun p => p.1 == id) then
    m.map fun p => if p.1 == id then (id, url) else p
  else m ++ [(id, url)]

/-- `Map.prototype.get` on the `workerEndpoints` map. -/
def mapGet (m : List (String × String)) (id : String) : Option String :=
  (m.find? fun p => p.1 == id).map (·.2)

/-- `Map.prototype.delete` on the `workerEndpoints` map. -/
def mapDelete (m : List (String × String)) (id : String) :
    List (String × String) :=
  m.filter fun p => !(p.1 == id)

/-- The Manager state slice relevant to slot accounting: ids of running
workers, the `workerEndpoints` map, and the Router's reserved-slot
counters. -/
structure SlotState where
  running : List String
  workerEndpoints : List (String × String)
  slots : String → Nat

/-- Slot-relevant events: `Manager.launchWorker` (reserve + record +
start), the worker completion callback (release + delete), and
`Manager.shutdown` (kill all workers, release every recorded binding,
clear the map). -/
inductive SlotEvent
  | launch (issueId url : String)
  | finish (issueId : String)
  | shutdown

/-- One slot-accounting transition, following `Manager.launchWorker`
(guarded by `spawnWorker` against double-launching a running worker), the
`worker.onComplete` callback (release only when a binding is present, then
delete it), and `Manager.shutdown`. -/
def slotStep (st : SlotState) : SlotEvent → SlotState
  | .launch id url =>
    if st.running.contains id then st
    else
      { running := st.running ++ [id],
        workerEndpoints := mapSet st.workerEndpoints id url,
        slots := reserveWorkerSlot st.slots url }
  | .finish id =>
    match mapGet st.workerEndpoints id with
    | some url =>
      { running := st.running.erase id,
        workerEndpoints := mapDelete st.workerEndpoints id,
        slots := releaseWorkerSlot st.slots url }
    | none => { st with running := st.running.erase id }
  | .shutdown =>
    { running := [],
      workerEndpoints := [],
      slots := st.workerEndpoints.foldl
        (fun acc p => releaseWorkerSlot acc p.2) st.slots }

/-- A whole execution of the slot-accounting slice. -/
def slotRun (st : SlotState) : List SlotEvent → SlotState
  | [] => st
  | e :: es => slotRun (slotStep st e) es

/-- Number of bindings a worker id holds in the map. -/
def entriesFor (m : List (String × String)) (id : String) : Nat :=
  (m.filter fun p => p.1 == id).length

/-- Number of bindings against a given endpoint URL. -/
def urlCount (m : List (String × String)) (url : String) : Nat :=
  (m.filter fun p => p.2 == url).length

/-- The slot-accounting invariant: running ids are distinct, every running
worker holds exactly one binding, every binding belongs to a running
worker, and the Router's reserved count of every endpoint equals the
number of bindings against it. -/
def slotInv (st : SlotState) : Prop :=
  st.running.Nodup ∧
  (∀ id, id ∈ st.running → entriesFor st.workerEndpoints id = 1) ∧
  (∀ p ∈ st.workerEndpoints, p.1 ∈ st.running) ∧
  (∀ url, st.slots url = urlCount st.workerEndpoints url)

theorem releaseAll_apply (u : String) :
    ∀ (m : List (String × String)) (slots : String → Nat),
      (m.foldl (fun acc p => releaseWorkerSlot acc p.2) slots) u =
        slots u - urlCount m u := by
  intro m
  induction m with
  | nil => intro slots; simp [urlCount]
  | cons p ms ih =>
    intro slots
    simp only [List.foldl_cons]
    rw [ih]
    by_cases hu : p.2 = u
    · have hbeq : (p.2 == u) = true := beq_iff_eq.mpr hu
      have hcount : urlCount (p :: ms) u = urlCount ms u + 1 := by
        simp [urlCount, List.filter_cons, hbeq]
      rw [hcount]
      simp only [releaseWorkerSlot]
      rw [if_pos hu.symm]
      omega
    · have hbeq : (p.2 == u) = false := beq_eq_false_iff_ne.mpr hu
      have hcount : urlCount (p :: ms) u = urlCount ms u := by
        simp [urlCount, List.filter_cons, hbeq]
      rw [hcount]
      simp only [releaseWorkerSlot]
      rw [if_neg fun h => hu h.symm]

theorem mapGet_eq_some (m : List (String × String)) (id url : String)
    (h : mapGet m id = some url) :
    ∃ p, p ∈ m ∧ p.1 = id ∧ p.2 = url := by
  rcases Option.map_eq_some'.mp h with ⟨p, hp, hurl⟩
  have hpk : (p.1 == id) = true := by
    have := List.find?_some hp
    simpa using this
  exact ⟨p, List.mem_of_find?_eq_some hp, beq_iff_eq.mp hpk, hurl⟩

theorem filter_key_of_unique (m : List (String × String)) (id url : String)
    (hget : mapGet m id = some url) (hone : entriesFor m id = 1) :
    m.filter (fun p => p.1 == id) = [(id, url)] := by
  rcases Option.map_eq_some'.mp hget with ⟨p, hp, hurl⟩
  have hpm : p ∈ m := List.mem_of_find?_eq_some hp
  have hpk : (p.1 == id) = true := by
    have := List.find?_some hp
    simpa using this
  have hpf : p ∈ m.filter (fun q => q.1 == id) := List.mem_filter.mpr ⟨hpm, hpk⟩
  rcases List.length_eq_one.mp hone with ⟨a, ha⟩
  rw [ha] at hpf
  rcases List.mem_singleton.mp hpf with rfl
  rw [ha]
  have : p = (id, url) := by
    rcases p with ⟨k, v⟩
    simp only at hurl
    cases hurl
    cases beq_iff_eq.mp hpk
    rfl
  rw [this]

theorem slotInv_step (st : SlotState) (e : SlotEvent) (h : slotInv st) :
    slotInv (slotStep st e) := by
  obtain ⟨hnd, hone, hkey, hcnt⟩ := h
  cases e with
  | launch id url =>
    by_cases hrun : st.running.contains id
    · have hstep : slotStep st (.launch id url) = st := by
        simp only [slotStep]
        rw [if_pos hrun]
      rw [hstep]
      exact ⟨hnd, hone, hkey, hcnt⟩
    · have hid : id ∉ st.running := by
        simpa using Bool.eq_false_iff.mpr hrun
      have hany : (st.workerEndpoints.any fun p => p.1 == id) = false := by
        rw [List.any_eq_false]
        intro p hp
        have hpr := hkey p hp
        simp only [Bool.not_eq_true]
        exact beq_eq_false_iff_ne.mpr fun hpe : p.1 = id => hid (hpe ▸ hpr)
      have hset : mapSet st.workerEndpoints id url =
          st.workerEndpoints ++ [(id, url)] := by
        simp [mapSet, hany]
      have hzero : entriesFor st.workerEndpoints id = 0 := by
        simp only [entriesFor, List.length_eq_zero, List.filter_eq_nil_iff]
        intro p hp
        have := List.any_eq_false.mp hany p hp
        simp [this]
      have hstep : slotStep st (.launch id url) =
          { running := st.running ++ [id],
            workerEndpoints := st.workerEndpoints ++ [(id, url)],
            slots := reserveWorkerSlot st.slots url } := by
        simp only [slotStep]
        rw [if_neg hrun, hset]
      rw [hstep]
      refine ⟨?_, ?_, ?_, ?_⟩
      · exact hnd.append (List.nodup_singleton id)
          (fun a ha hb => hid ((List.mem_singleton.mp hb) ▸ ha))
      · intro id2 hid2
        rcases List.mem_append.mp hid2 with h2 | h2
        · have hne : (id == id2) = false :=
            beq_eq_false_iff_ne.mpr fun he => hid (he ▸ h2)
          simp only [entriesFor, List.filter_append]
          rw [List.length_append]
          have : List.filter (fun p => p.1 == id2) [(id, url)] = [] := by
            simp [hne]
          rw [this]
          simpa [entriesFor] using hone id2 h2
        · rcases List.mem_singleton.mp h2 with rfl
          simp only [entriesFor, List.filter_append, List.length_append]
          have h1 : List.filter (fun p => p.1 == id2) [(id2, url)] =
              [(id2, url)] := by simp
          rw [h1]
          simpa [entriesFor] using hzero
      · intro p hp
        rcases List.mem_append.mp hp with h2 | h2
        · exact List.mem_append.mpr (Or.inl (hkey p h2))
        · rcases List.mem_singleton.mp h2 with rfl
          exact List.mem_append.mpr (Or.inr (List.mem_singleton.mpr rfl))
      · intro u
        simp only [reserveWorkerSlot, urlCount, List.filter_append,
          List.length_append]
        by_cases hu : u = url
        · subst hu
          simp only [if_pos rfl]
          rw [hcnt u]
          simp [urlCount]
        · rw [if_neg hu]
          have : List.filter (fun p => p.2 == u) [(id, url)] = [] := by
            simp [beq_eq_false_iff_ne.mpr fun he => hu he.symm]
          rw [this]
          simpa [urlCount] using hcnt u
  | finish id =>
    cases hget : mapGet st.workerEndpoints id with
    | none =>
      simp only [slotStep, hget]
      have hnofind := Option.map_eq_none'.mp hget
      have hnokey : ∀ p ∈ st.workerEndpoints, (p.1 == id) = false := by
        intro p hp
        have := List.find?_eq_none.mp hnofind p hp
        simpa using this
      refine ⟨hnd.erase id, ?_, ?_, hcnt⟩
      · intro id2 hid2
        exact hone id2 (List.mem_of_mem_erase hid2)
      · intro p hp
        have hmem := hkey p hp
        have hne : p.1 ≠ id := by
          have := hnokey p hp
          exact beq_eq_false_iff_ne.mp this
        exact (List.mem_erase_of_ne hne).mpr hmem
    | some url =>
      rcases mapGet_eq_some _ _ _ hget with ⟨p0, hp0m, hp0k, hp0u⟩
      have hidrun : id ∈ st.running := hp0k ▸ hkey p0 hp0m
      have hone1 : entriesFor st.workerEndpoints id = 1 := hone id hidrun
      have hfilt := filter_key_of_unique _ _ _ hget hone1
      have hperm : List.Perm st.workerEndpoints
          ((id, url) :: mapDelete st.workerEndpoints id) := by
        have := (List.filter_append_perm
          (fun p => p.1 == id) st.workerEndpoints).symm
        rw [hfilt] at this
        simpa [mapDelete] using this
      simp only [slotStep, hget]
      refine ⟨hnd.erase id, ?_, ?_, ?_⟩
      · intro id2 hid2
        have hid2r : id2 ∈ st.running := List.mem_of_mem_erase hid2
        have hne : id2 ≠ id := (List.Nodup.mem_erase_iff hnd).mp hid2 |>.1
        have : entriesFor (mapDelete st.workerEndpoints id) id2 =
            entriesFor st.workerEndpoints id2 := by
          simp only [entriesFor, mapDelete, List.filter_filter]
          apply congrArg List.length
          apply List.filter_congr
          intro a _
          by_cases hk : a.1 = id2
          · have h1 : (a.1 == id2) = true := beq_iff_eq.mpr hk
            have h2 : (a.1 == id) = false :=
              beq_eq_false_iff_ne.mpr (hk ▸ hne)
            simp [h1, h2]
          · have h1 : (a.1 == id2) = false := beq_eq_false_iff_ne.mpr hk
            simp [h1]
        rw [this]
        exact hone id2 hid2r
      · intro p hp
        rcases List.mem_filter.mp hp with ⟨hpm, hpk⟩
        have hne : p.1 ≠ id := by
          simp only [Bool.not_eq_true'] at hpk
          exact beq_eq_false_iff_ne.mp hpk
        exact (List.mem_erase_of_ne hne).mpr (hkey p hpm)
      · intro u
        have hsplit : urlCount st.workerEndpoints u =
            urlCount ((id, url) :: mapDelete st.workerEndpoints id) u :=
          (hperm.filter _).length_eq
        by_cases hu : u = url
        · subst hu
          have hcons : urlCount ((id, u) :: mapDelete st.workerEndpoints id) u
              = urlCount (mapDelete st.workerEndpoints id) u + 1 := by
            simp only [urlCount, List.filter_cons]
            rw [if_pos]
            · rfl
            · simp
          show releaseWorkerSlot st.slots u u =
            urlCount (mapDelete st.workerEndpoints id) u
          have hrel : releaseWorkerSlot st.slots u u = st.slots u - 1 := by
            simp [releaseWorkerSlot]
          rw [hrel, hcnt u, hsplit, hcons]
          omega
        · have hb : ((id, url).2 == u) = false := by
            simp only []
            exact beq_eq_false_iff_ne.mpr fun he => hu he.symm
          have hcons : urlCount ((id, url) :: mapDelete st.workerEndpoints id) u
              = urlCount (mapDelete st.workerEndpoints id) u := by
            simp only [urlCount, List.filter_cons, hb]
            simp
          show releaseWorkerSlot st.slots url u =
            urlCount (mapDelete st.workerEndpoints id) u
          have hrel : releaseWorkerSlot st.slots url u = st.slots u := by
            simp [releaseWorkerSlot, hu]
          rw [hrel, hcnt u, hsplit, hcons]
  | shutdown =>
    refine ⟨List.nodup_nil, ?_, ?_, ?_⟩
    · intro id2 hid2
      simp [slotStep] at hid2
    · intro p hp
      simp [slotStep] at hp
    · intro u
      simp only [slotStep]
      rw [releaseAll_apply, hcnt u]
      simp [urlCount]

theorem slotInv_run (st : SlotState) (evs : List SlotEvent)
    (h : slotInv st) : slotInv (slotRun st evs) := by
  induction evs generalizing st with
  | nil => exact h
  | cons e es ih => exact ih _ (slotInv_step st e h)

/-- C6 (router slot operations modelled from the spec, their definitions
being absent from the sources): from any state satisfying the
slot-accounting invariant (e.g. the initial empty state), every state
reached by launch/finish/shutdown events again satisfies it — in
particular every running worker holds exactly one recorded endpoint
binding and the Router's reserved count of each endpoint equals the number
of bindings against it.  Moreover the slot of a running worker is released
exactly once: its terminal callback decrements the reserved count of its
endpoint by exactly one and removes the binding, and a second terminal
event for the same worker leaves the counters untouched. -/
theorem c6_reserved_slot_exactly_once :
    (∀ (st : SlotState) (evs : List SlotEvent),
      slotInv st → slotInv (slotRun st evs)) ∧
    (∀ (st : SlotState) (id url : String), slotInv st →
      mapGet st.workerEndpoints id = some url →
      (slotStep st (.finish id)).slots url + 1 = st.slots url ∧
        entriesFor (slotStep st (.finish id)).workerEndpoints id = 0 ∧
        (slotStep (slotStep st (.finish id)) (.finish id)).slots =
          (slotStep st (.finish id)).slots) := by
  constructor
  · exact slotInv_run
  · intro st id url h hget
    obtain ⟨hnd, hone, hkey, hcnt⟩ := h
    rcases mapGet_eq_some _ _ _ hget with ⟨p0, hp0m, hp0k, hp0u⟩
    have hurl1 : 1 ≤ urlCount st.workerEndpoints url := by
      have : p0 ∈ st.workerEndpoints.filter (fun p => p.2 == url) :=
        List.mem_filter.mpr ⟨hp0m, beq_iff_eq.mpr hp0u⟩
      have := List.length_pos_of_mem this
      simpa [urlCount] using this
    have hstep : (slotStep st (.finish id)) =
        { running := st.running.erase id,
          workerEndpoints := mapDelete st.workerEndpoints id,
          slots := releaseWorkerSlot st.slots url } := by
      simp [slotStep, hget]
    refine ⟨?_, ?_, ?_⟩
    · rw [hstep]
      show releaseWorkerSlot st.slots url url + 1 = st.slots url
      have hrel : releaseWorkerSlot st.slots url url = st.slots url - 1 := by
        simp [releaseWorkerSlot]
      rw [hrel]
      have h1 : 1 ≤ st.slots url := by rw [hcnt url]; exact hurl1
      omega
    · rw [hstep]
      simp only [entriesFor, mapDelete, List.filter_filter]
      have : List.filter
          (fun a => (a.1 == id) && !(a.1 == id)) st.workerEndpoints = [] := by
        rw [List.filter_eq_nil_iff]
        intro a _
        cases hk : (a.1 == id) <;> simp [hk]
      rw [this]
      rfl
    · have hnone : mapGet (mapDelete st.workerEndpoints id) id = none := by
        simp only [mapGet, Option.map_eq_none']
        rw [List.find?_eq_none]
        intro p hp
        rcases List.mem_filter.mp hp with ⟨_, hpk⟩
        simp only [Bool.not_eq_true'] at hpk
        simp [hpk]
      rw [hstep]
      simp [slotStep, hnone]

/-- Witness for C6 at a concrete state: one running worker bound to one
endpoint with one reserved slot. -/
theorem c6_witness :
    slotInv (slotRun
      ⟨["001"], [("001", "http-a")],
        fun u => if u = "http-a" then 1 else 0⟩
      [.finish "001"]) ∧
    (slotStep ⟨["001"], [("001", "http-a")],
        fun u => if u = "http-a" then 1 else 0⟩
      (.finish "001")).slots "http-a" + 1 =
      (fun u => if u = "http-a" then 1 else 0) "http-a" := by
  have hinv : slotInv ⟨["001"], [("001", "http-a")],
      fun u => if u = "http-a" then 1 else 0⟩ := by
    refine ⟨by simp, ?_, ?_, ?_⟩
    · intro id hid
      simp at hid
      subst hid
      rfl
    · intro p hp
      simp at hp
      subst hp
      simp
    · intro u
      by_cases hu : u = "http-a"
      · subst hu
        rfl
      · have hb : (("001", "http-a").2 == u) = false :=
          beq_eq_false_iff_ne.mpr fun he => hu he.symm
        simp only [urlCount, List.filter_cons, hb]
        simp [hu]
  exact ⟨c6_reserved_slot_exactly_once.1 _ [.finish "001"] hinv,
    (c6_reserved_slot_exactly_once.2 _ "001" "http-a" hinv rfl).1⟩

/-! ## Tool dispatch (`Manager.executeTool`)

Each fallible external operation a tool handler performs is modelled by an
`Except String α` oracle in a `ToolEnv` environment: `.error e` stands for
the operation throwing with message `e`, and the handler body propagates or
catches it exactly as the source's (absent or present) `try`/`catch` does.
`executeTool` returning `.error e` models the exception escaping the
handler into the turn loop. -/

/-- The `DESTRUCTIVE_TOOLS` set of `src/agents/manager.ts`. -/
def destructiveTools : List String :=
  ["delete_issue", "spawn_worker", "merge_issue", "git_commit"]

/-- Outcomes of the external operations the tool handlers perform, one
oracle per call site, `Except`-valued when the source call can throw. -/
structure ToolEnv where
  yoloMode : Bool
  hasConfirmCallback : Bool
  confirmApproved : Bool
  missingSpecs : List String
  specsEmpty : Bool
  trackerCreateRes : Except String String
  trackerListRes : Except String (List String)
  spawnRes : Except String String
  reviewLookup : Except String Bool
  diffRes : Except String String
  mergeRes : Except String (Bool × String)
  postMergeRes : Except String Unit
  testsRes : Except String String
  writeSpecRes : Except String Unit
  specsDirExists : Bool
  listSpecsRes : Except String (List String)
  reprioritizeRes : Except String (Option String)
  workerStatusText : Option String
  deleteLookup : Except String Bool
  unlinkRes : Except String Unit
  gitCommitRes : Except String String
  readFileRes : Except String String

/-- The method `Manager.executeTool`.  The confirmation gate short-circuits
a denied destructive tool with the fixed cancellation string.  The `switch`
is an equality chain on the tool name.  Handler bodies follow the source's
catch structure: `git_commit` and `read_file` wrap their fallible calls in
`try`/`catch` and convert failures to descriptive strings; `review_diff`
wraps only the diff call — the `tracker.get` issue lookup before it (a
directory read) sits outside the `try`/`catch`, so a lookup failure
propagates; `worker_status` performs no fallible call; `spawn_worker`
returns whatever `spawnWorker` produces (which catches its own launch
failures); `delete_issue` catches the worktree removal but not the issue
lookup or the file unlink; the remaining handlers — `create_issue`,
`list_issues`, `merge_issue`, `run_tests`, `create_spec`, `list_specs`,
`reprioritize` — have no `try`/`catch` around their fallible calls, so
those failures propagate. -/
def executeTool (name : String) (env : ToolEnv) : Except String String :=
  if destructiveTools.contains name && !env.yoloMode &&
      env.hasConfirmCallback && !env.confirmApproved then
    .ok "Action cancelled by user."
  else if name = "create_issue" then
    if env.missingSpecs ≠ [] then
      .ok ("Cannot create issue: spec files not found: " ++
        String.intercalate ", " env.missingSpecs ++
        ". Create them first with create_spec.")
    else if env.specsEmpty then
      .ok ("Cannot create issue without specs. Create a spec first with " ++
        "create_spec, then reference it here.")
    else
      match env.trackerCreateRes with
      | .error e => .error e
      | .ok line => .ok ("Created issue " ++ line)
  else if name = "list_issues" then
    match env.trackerListRes with
    | .error e => .error e
    | .ok [] => .ok "No issues found."
    | .ok lines => .ok (String.intercalate "\n" lines)
  else if name = "spawn_worker" then
    env.spawnRes
  else if name = "review_diff" then
    match env.reviewLookup with
    | .error e => .error e
    | .ok false => .ok "Issue not found."
    | .ok true =>
      match env.diffRes with
      | .error e => .ok ("Error getting diff: " ++ e)
      | .ok d => .ok (if d = "" then "No changes found in worktree." else d)
  else if name = "merge_issue" then
    match env.mergeRes with
    | .error e => .error e
    | .ok (true, m) =>
      match env.postMergeRes with
      | .error e => .error e
      | .ok _ => .ok ("Merged and closed issue. " ++ m ++
          ". Worktree cleaned up.")
    | .ok (false, m) =>
      .ok ("Merge failed: " ++ m ++
        ". Do NOT retry — tell the user what went wrong and ask how to " ++
        "proceed.")
  else if name = "run_tests" then
    match env.testsRes with
    | .error e => .error e
    | .ok s => .ok s
  else if name = "create_spec" then
    match env.writeSpecRes with
    | .error e => .error e
    | .ok _ => .ok "Created spec file."
  else if name = "list_specs" then
    if !env.specsDirExists then .ok "No specs/ directory found."
    else
      match env.listSpecsRes with
      | .error e => .error e
      | .ok [] => .ok "No spec files found in specs/."
      | .ok files => .ok (String.intercalate "\n" files)
  else if name = "reprioritize" then
    match env.reprioritizeRes with
    | .error e => .error e
    | .ok none => .ok "Issue not found."
    | .ok (some msg) => .ok msg
  else if name = "worker_status" then
    match env.workerStatusText with
    | none => .ok "No worker found for this issue."
    | some s => .ok s
  else if name = "delete_issue" then
    match env.deleteLookup with
    | .error e => .error e
    | .ok false => .ok "Issue not found."
    | .ok true =>
      match env.unlinkRes with
      | .error e => .error e
      | .ok _ => .ok "Deleted issue."
  else if name = "git_commit" then
    match env.gitCommitRes with
    | .error e => .ok ("Git commit failed: " ++ e)
    | .ok m => .ok m
  else if name = "read_file" then
    match env.readFileRes with
    | .error _ => .ok "File not found."
    | .ok content => .ok content
  else .ok ("Unknown tool: " ++ name)

/-- The `try`/`catch` of `Manager.processChat` around tool execution: a
string escaping `executeTool` as an exception becomes an error event and
the turn ends (`continueLoop = false`); an ordinary result is appended as
a tool-result message and the loop continues.  Returns the emitted text
and whether the turn was aborted. -/
def toolLoopStep (name : String) (env : ToolEnv) : String × Bool :=
  match executeTool name env with
  | .ok s => (s, false)
  | .error e => (e, true)

/-- An environment in which every external operation succeeds. -/
def benignToolEnv : ToolEnv where
  yoloMode := false
  hasConfirmCallback := true
  confirmApproved := true
  missingSpecs := []
  specsEmpty := false
  trackerCreateRes := .ok "#001: t [open]"
  trackerListRes := .ok ["#001 t [open] (medium)"]
  spawnRes := .ok "Worker spawned for issue #001."
  reviewLookup := .ok true
  diffRes := .ok "diff --git a b"
  mergeRes := .ok (true, "Merged")
  postMergeRes := .ok ()
  testsRes := .ok "Exit code: 0"
  writeSpecRes := .ok ()
  specsDirExists := true
  listSpecsRes := .ok ["- specs/a.md"]
  reprioritizeRes := .ok (some "Issue #001 priority changed to high.")
  workerStatusText := some "Worker #001: running"
  deleteLookup := .ok true
  unlinkRes := .ok ()
  gitCommitRes := .ok "Committed 1 file(s)"
  readFileRes := .ok "content"

/-- C8, counterexample: with a failing file-system write, the
`create_spec` handler — which has no `try`/`catch` — does not return a
descriptive string: the failure escapes `executeTool` as an exception and
the turn loop's surrounding catch aborts the turn, so the claim that every
handler returns a string and never raises is false. -/
theorem c8_create_spec_propagates :
    executeTool "create_spec"
        { benignToolEnv with writeSpecRes := .error "ENOSPC: disk full" } =
      .error "ENOSPC: disk full" ∧
    (toolLoopStep "create_spec"
        { benignToolEnv with writeSpecRes := .error "ENOSPC: disk full" }).2 =
      true := by
  constructor
  · rfl
  · rfl

/-- C8 as amended: the `git_commit`, `read_file` and `worker_status`
handlers catch their internal failures and always return a human-readable
string; `review_diff` does so only for the diff call its `try`/`catch`
wraps — its issue lookup runs before the `try` and a lookup failure
propagates; a denied destructive tool short-circuits with the fixed
cancellation string; and the handlers without a `try`/`catch` —
`create_spec` among them — propagate their file-system failures out of
`executeTool`, where the turn loop's own `try`/`catch` converts them into
an error event that aborts the turn (the process survives, but the loop
is interrupted). -/
theorem c8_amended_catch_structure :
    (∀ (env : ToolEnv) (b : Bool), env.reviewLookup = .ok b →
      (executeTool "review_diff" env).isOk = true) ∧
    (∀ (env : ToolEnv) (e : String), env.reviewLookup = .error e →
      executeTool "review_diff" env = .error e) ∧
    (∀ env : ToolEnv, (executeTool "git_commit" env).isOk = true) ∧
    (∀ env : ToolEnv, (executeTool "read_file" env).isOk = true) ∧
    (∀ env : ToolEnv, (executeTool "worker_status" env).isOk = true) ∧
    (∀ (env : ToolEnv) (name : String), destructiveTools.contains name →
      env.yoloMode = false → env.hasConfirmCallback = true →
      env.confirmApproved = false →
      executeTool name env = .ok "Action cancelled by user.") ∧
    (∀ (env : ToolEnv) (e : String), env.writeSpecRes = .error e →
      executeTool "create_spec" env = .error e) ∧
    (∀ (name : String) (env : ToolEnv) (e : String),
      executeTool name env = .error e → toolLoopStep name env = (e, true)) := by
  refine ⟨?_, ?_, ?_, ?_, ?_, ?_, ?_, ?_⟩
  · intro env b hb
    have hg : (destructiveTools.contains "review_diff" && !env.yoloMode &&
        env.hasConfirmCallback && !env.confirmApproved) = false := by
      simp [destructiveTools]
    simp only [executeTool, hg, Bool.false_eq_true, if_false]
    rw [hb]
    cases b with
    | false => simp [Except.isOk, Except.toBool]
    | true => cases env.diffRes <;> simp [Except.isOk, Except.toBool]
  · intro env e he
    have hg : (destructiveTools.contains "review_diff" && !env.yoloMode &&
        env.hasConfirmCallback && !env.confirmApproved) = false := by
      simp [destructiveTools]
    simp only [executeTool, hg, Bool.false_eq_true, if_false]
    simp [he]
  · intro env
    simp only [executeTool]
    by_cases hg : (destructiveTools.contains "git_commit" && !env.yoloMode &&
        env.hasConfirmCallback && !env.confirmApproved) = true
    · rw [if_pos hg]
      rfl
    · rw [if_neg hg]
      cases env.gitCommitRes <;> simp [Except.isOk, Except.toBool]
  · intro env
    have hg : (destructiveTools.contains "read_file" && !env.yoloMode &&
        env.hasConfirmCallback && !env.confirmApproved) = false := by
      simp [destructiveTools]
    simp only [executeTool, hg, Bool.false_eq_true, if_false]
    cases env.readFileRes <;> simp [Except.isOk, Except.toBool]
  · intro env
    have hg : (destructiveTools.contains "worker_status" && !env.yoloMode &&
        env.hasConfirmCallback && !env.confirmApproved) = false := by
      simp [destructiveTools]
    simp only [executeTool, hg, Bool.false_eq_true, if_false]
    cases env.workerStatusText <;> simp [Except.isOk, Except.toBool]
  · intro env name hdes hyolo hcb happ
    have hg : (destructiveTools.contains name && !env.yoloMode &&
        env.hasConfirmCallback && !env.confirmApproved) = true := by
      simp only [hdes, hyolo, hcb, happ]
      rfl
    simp only [executeTool]
    rw [if_pos hg]
  · intro env e he
    have hg : (destructiveTools.contains "create_spec" && !env.yoloMode &&
        env.hasConfirmCallback && !env.confirmApproved) = false := by
      simp [destructiveTools]
    simp only [executeTool, hg, Bool.false_eq_true, if_false]
    simp [he]
  · intro name env e he
    simp [toolLoopStep, he]

/-- Witness for the amended C8 at concrete environments. -/
theorem c8_amended_witness :
    (executeTool "review_diff"
      { benignToolEnv with diffRes := .error "boom" }).isOk = true ∧
    executeTool "review_diff"
        { benignToolEnv with reviewLookup := .error "EIO: readdir failed" } =
      .error "EIO: readdir failed" ∧
    executeTool "merge_issue"
        { benignToolEnv with confirmApproved := false } =
      .ok "Action cancelled by user." ∧
    executeTool "create_spec"
        { benignToolEnv with writeSpecRes := .error "EACCES" } =
      .error "EACCES" ∧
    toolLoopStep "create_spec"
        { benignToolEnv with writeSpecRes := .error "EACCES" } =
      ("EACCES", true) :=
  ⟨c8_amended_catch_structure.1
      { benignToolEnv with diffRes := .error "boom" } true rfl,
    c8_amended_catch_structure.2.1
      { benignToolEnv with reviewLookup := .error "EIO: readdir failed" }
      "EIO: readdir failed" rfl,
    c8_amended_catch_structure.2.2.2.2.2.1
      { benignToolEnv with confirmApproved := false } "merge_issue"
      (by decide) rfl rfl rfl,
    c8_amended_catch_structure.2.2.2.2.2.2.1
      { benignToolEnv with writeSpecRes := .error "EACCES" } "EACCES" rfl,
    c8_amended_catch_structure.2.2.2.2.2.2.2 "create_spec"
      { benignToolEnv with writeSpecRes := .error "EACCES" } "EACCES"
      (c8_amended_catch_structure.2.2.2.2.2.2.1
        { benignToolEnv with writeSpecRes := .error "EACCES" } "EACCES" rfl)⟩

/-! ## Issue record serialization and parsing (`src/issues/parser.ts`)

`parseIssue` and `serializeIssue` are embedded over `Str` (`List Char`).
`content.split(sep)`, `join(sep)`, `trim`, `startsWith`, `includes`,
`slice` and the concrete regular expressions of the source become the
executable functions below.  `new Date().toISOString()` (the fallback for
a missing `created` field) is an environment input and becomes the `now`
parameter of `parseIssue`. -/

/-- `String.prototype.split` with a single-character separator. -/
def splitOnChar (sep : Char) : Str → List Str
  | [] => [[]]
  | c :: rest =>
    if c = sep then [] :: splitOnChar sep rest
    else
      match splitOnChar sep rest with
      | [] => [[c]]
      | h :: t => (c :: h) :: t

/-- `Array.prototype.join('\n')`. -/
def intercalateChar (sep : Char) : List Str → Str
  | [] => []
  | [l] => l
  | l :: l2 :: ls => l ++ sep :: intercalateChar sep (l2 :: ls)

/-- `Array.prototype.join(', ')` used for the `specs` field. -/
def intercalateCommaSpace : List Str → Str
  | [] => []
  | [l] => l
  | l :: l2 :: ls => l ++ ',' :: ' ' :: intercalateCommaSpace (l2 :: ls)

/-- `String.prototype.trim`: strip the JavaScript whitespace set from both
ends. -/
def jsTrim (s : Str) : Str :=
  ((s.dropWhile isJsWhitespace).reverse.dropWhile isJsWhitespace).reverse

/-- `String.prototype.replace` with a plain-string pattern: remove the
first (leftmost) occurrence of `pat`. -/
def removeFirstSub (pat : Str) : Str → Str
  | [] => []
  | c :: rest =>
    if pat.isPrefixOf (c :: rest) then (c :: rest).drop pat.length
    else c :: removeFirstSub pat rest

/-- The suffix after the last occurrence of `marker`, if any: the effect of
`replace(/.*MARKER/, '')`, whose greedy `.*` selects the rightmost
occurrence. -/
def afterLastMarker (marker : Str) : Str → Option Str
  | [] => if marker.isPrefixOf ([] : Str) then some [] else none
  | c :: rest =>
    match afterLastMarker marker rest with
    | some r => some r
    | none =>
      if marker.isPrefixOf (c :: rest) then
        some ((c :: rest).drop marker.length)
      else none

/-- The literal `**field**:` looked up by `extractField`. -/
def fieldMarker (field : Str) : Str :=
  '*' :: '*' :: field ++ '*' :: '*' :: ':' :: []

/-- The inner helper `extractField` of `parseIssue`: find the first line
containing the marker and strip everything up to and including the last
marker occurrence and the following whitespace (`.*\*\*f\*\*:\s*` with a
greedy `.*`), then trim; the empty string when no line matches. -/
def extractField (lines : List Str) (field : Str) : Str :=
  let marker := fieldMarker field
  match lines.find? (fun l => containsSub l marker) with
  | none => []
  | some line =>
    match afterLastMarker marker line with
    | some suffix => jsTrim (suffix.dropWhile isJsWhitespace)
    | none => jsTrim line

/-- `findIndex` with a plain predicate, tracking the index. -/
def findIdxP (p : Str → Bool) : List Str → Nat → Option Nat
  | [], _ => none
  | l :: rest, i => if p l then some i else findIdxP p rest (i + 1)

/-- `findIndex((l, i) => i > start && p(l))` where `start` may be the
JavaScript `-1` of a failed earlier `findIndex`. -/
def findIdxAfter (p : Str → Bool) (start : Int) :
    List Str → Nat → Option Nat
  | [], _ => none
  | l :: rest, i =>
    if decide (start < (i : Int)) && p l then some i
    else findIdxAfter p start rest (i + 1)

/-- `Array.prototype.slice(a, b)` (`b` absent meaning to the end). -/
def sliceList (l : List Str) (a : Nat) : Option Nat → List Str
  | none => l.drop a
  | some b => (l.take b).drop a

/-- The regex `/^(\d+)/` capture on the filename. -/
def leadingDigits (s : Str) : Str :=
  s.takeWhile fun c => c.isDigit

/-- The filename rewrite removing a leading digit run followed by a dash (the first `replace` of the slug extraction). -/
def stripLeadingDigitsDash (s : Str) : Str :=
  let ds := leadingDigits s
  if ds ≠ [] then
    match s.drop ds.length with
    | '-' :: r => r
    | _ => s
  else s

/-- `replace(/\.md$/, '')`. -/
def stripMdSuffix (s : Str) : Str :=
  if (".md".toList).isSuffixOf s then s.take (s.length - 3) else s

/-- An agent-log entry (`AgentLogEntry` in `src/issues/parser.ts`). -/
structure AgentLogEntry where
  timestamp : Str
  agent : Str
  content : Str
deriving DecidableEq, Repr

/-- The issue record of `src/issues/parser.ts`.  `status` and `priority`
are carried as the raw strings the parser extracts (the source's `as`
casts are no-ops). -/
structure Issue where
  id : Str
  title : Str
  slug : Str
  status : Str
  created : Str
  branch : Str
  specs : List Str
  priority : Str
  description : Str
  acceptanceCriteria : List Str
  agentLog : List AgentLogEntry
deriving DecidableEq, Repr

/-- Position of the last ` - ` separator usable by the greedy regex
`/^### (.+) - (.+)$/`: the greatest split point with nonempty text on both
sides. -/
def lastSepIdxAux (body : Str) : Nat → Option Nat
  | 0 => none
  | i + 1 =>
    if (" - ".toList).isPrefixOf (body.drop (i + 1)) &&
        !(body.drop (i + 1 + 3)).isEmpty then
      some (i + 1)
    else lastSepIdxAux body i

/-- The match `/^### (.+) - (.+)$/` on an agent-log header line. -/
def parseLogHeader (l : Str) : Option (Str × Str) :=
  if ("### ".toList).isPrefixOf l then
    let body := l.drop 4
    match lastSepIdxAux body body.length with
    | some i => some (body.take i, body.drop (i + 3))
    | none => none
  else none

/-- The agent-log accumulation loop of `parseIssue`: header lines open a
new entry (pushing the previous one), a `## `-prefixed line ends the
section once an entry is open, and other lines append to the open entry
with a newline. -/
def agentLogAux : List Str → Option AgentLogEntry → List AgentLogEntry
  | [], curr =>
    match curr with
    | some e => [e]
    | none => []
  | l :: rest, curr =>
    match parseLogHeader l with
    | some (ts, ag) =>
      match curr with
      | some e => e :: agentLogAux rest (some ⟨ts, ag, []⟩)
      | none => agentLogAux rest (some ⟨ts, ag, []⟩)
    | none =>
      match curr with
      | some e =>
        if ("## ".toList).isPrefixOf l then [e]
        else agentLogAux rest (some { e with content := e.content ++ l ++ ['\n'] })
      | none => agentLogAux rest none

/-- The function `parseIssue` of `src/issues/parser.ts`. -/
def parseIssue (content : Str) (filename : Str) (now : Str) : Issue :=
  let lines := splitOnChar '\n' content
  let title :=
    match lines.find? (fun l => ("# ".toList).isPrefixOf l) with
    | some l => jsTrim (removeFirstSub ("# ".toList) l)
    | none => "Untitled".toList
  let idField := extractField lines ("id".toList)
  let fnDigits := leadingDigits filename
  let id :=
    if idField ≠ [] then idField
    else if fnDigits ≠ [] then fnDigits
    else "000".toList
  let statusField := extractField lines ("status".toList)
  let status := if statusField ≠ [] then statusField else "open".toList
  let createdField := extractField lines ("created".toList)
  let created := if createdField ≠ [] then createdField else now
  let branch := extractField lines ("branch".toList)
  let specsRaw := extractField lines ("specs".toList)
  let specs :=
    if specsRaw ≠ [] then
      (((splitOnChar ',' specsRaw).map jsTrim).filter fun s => !s.isEmpty)
    else []
  let priorityField := extractField lines ("priority".toList)
  let priority := if priorityField ≠ [] then priorityField
    else "medium".toList
  let slug := stripMdSuffix (stripLeadingDigitsDash filename)
  let descStart := findIdxP
    (fun l => jsTrim l == ("## Description".toList)) lines 0
  let description :=
    match descStart with
    | some ds =>
      let descEnd := findIdxAfter
        (fun l => ("## ".toList).isPrefixOf l) (ds : Int) lines 0
      jsTrim (intercalateChar '\n' (sliceList lines (ds + 1) descEnd))
    | none => []
  let acStart := findIdxP
    (fun l => jsTrim l == ("## Acceptance Criteria".toList)) lines 0
  let acceptanceCriteria :=
    match acStart with
    | some as0 =>
      let acEnd := findIdxAfter
        (fun l => ("## ".toList).isPrefixOf l) (as0 : Int) lines 0
      ((sliceList lines (as0 + 1) acEnd).filter
        (fun l => ("- [".toList).isPrefixOf (jsTrim l))).map jsTrim
    | none => []
  let logStart := findIdxP
    (fun l => jsTrim l == ("## Agent Log".toList)) lines 0
  let agentLog :=
    match logStart with
    | some ls =>
      (agentLogAux (lines.drop (ls + 1)) none).map
        fun e => { e with content := jsTrim e.content }
    | none => []
  { id := id, title := title, slug := slug, status := status,
    created := created, branch := branch, specs := specs,
    priority := priority, description := description,
    acceptanceCriteria := acceptanceCriteria, agentLog := agentLog }

/-- The function `serializeIssue` of `src/issues/parser.ts`: build the
line list and join with newlines. -/
def serializeIssue (issue : Issue) : Str :=
  intercalateChar '\n' (
    [("# ".toList) ++ issue.title,
     [],
     ("- **id**: ".toList) ++ issue.id,
     ("- **status**: ".toList) ++ issue.status,
     ("- **created**: ".toList) ++ issue.created,
     ("- **branch**: ".toList) ++ issue.branch,
     ("- **specs**: ".toList) ++ intercalateCommaSpace issue.specs,
     ("- **priority**: ".toList) ++ issue.priority,
     [],
     "## Description".toList,
     [],
     issue.description,
     [],
     "## Acceptance Criteria".toList,
     []]
    ++ issue.acceptanceCriteria.map (fun ac =>
        if ("- [".toList).isPrefixOf ac then ac
        else ("- [ ] ".toList) ++ ac)
    ++ [[], "## Agent Log".toList, []]
    ++ issue.agentLog.flatMap (fun e =>
        [("### ".toList) ++ e.timestamp ++ (" - ".toList) ++ e.agent,
         e.content, []]))

/-- A concrete issue whose title carries a leading space: a single line,
satisfying every condition the claim states. -/
def spacedTitleIssue : Issue where
  id := "001".toList
  title := " a".toList
  slug := "a".toList
  status := "open".toList
  created := "2026-01-01T00:00:00.000Z".toList
  branch := "myratree/001-a".toList
  specs := ["specs/x.md".toList]
  priority := "medium".toList
  description := "desc".toList
  acceptanceCriteria := ["- [ ] works".toList]
  agentLog := []

/-- C10, counterexample: `spacedTitleIssue` satisfies all the conditions
of the claim (single-line title, description and criteria free of `#`
lines and field markers, comma-free spec paths, criteria starting with
`- [`), yet the round trip through `serializeIssue`/`parseIssue` returns
title `"a"` instead of the original `" a"`, because the parser trims the
title line.  The claim as stated is therefore false. -/
theorem c10_roundtrip_loses_title_space :
    (parseIssue (serializeIssue spacedTitleIssue) ("001-a.md".toList)
        ("2026-02-02T00:00:00.000Z".toList)).title = "a".toList ∧
    spacedTitleIssue.title = " a".toList ∧
    (parseIssue (serializeIssue spacedTitleIssue) ("001-a.md".toList)
        ("2026-02-02T00:00:00.000Z".toList)).title ≠
      spacedTitleIssue.title := by
  refine ⟨by decide, by decide, by decide⟩

/-! ### Split / join / trim lemmas -/

theorem splitOnChar_ne_nil (sep : Char) (s : Str) :
    splitOnChar sep s ≠ [] := by
  cases s with
  | nil => simp [splitOnChar]
  | cons c rest =>
    by_cases h : c = sep
    · simp [splitOnChar, h]
    · simp only [splitOnChar, if_neg h]
      cases hs : splitOnChar sep rest <;> simp

theorem splitOnChar_append_sep (sep : Char) (xs ys : Str) :
    splitOnChar sep (xs ++ sep :: ys) =
      splitOnChar sep xs ++ splitOnChar sep ys := by
  induction xs with
  | nil => simp [splitOnChar]
  | cons c rest ih =>
    by_cases h : c = sep
    · simp [splitOnChar, h, ih]
    · simp only [List.cons_append, splitOnChar, if_neg h]
      cases hs : splitOnChar sep rest with
      | nil => exact absurd hs (splitOnChar_ne_nil sep rest)
      | cons h2 t2 =>
        simp only [List.append_eq]
        rw [ih, hs]
        simp

theorem splitOnChar_of_not_mem (sep : Char) (s : Str) (h : sep ∉ s) :
    splitOnChar sep s = [s] := by
  induction s with
  | nil => simp [splitOnChar]
  | cons c rest ih =>
    have hc : ¬ c = sep := fun he => h (he ▸ List.mem_cons_self c rest)
    have hr : sep ∉ rest := fun hm => h (List.mem_cons_of_mem c hm)
    simp [splitOnChar, hc, ih hr]

theorem intercalateChar_splitOnChar (sep : Char) (s : Str) :
    intercalateChar sep (splitOnChar sep s) = s := by
  induction s with
  | nil => simp [splitOnChar, intercalateChar]
  | cons c rest ih =>
    by_cases h : c = sep
    · have hsplit : splitOnChar sep (c :: rest) = [] :: splitOnChar sep rest := by
        simp [splitOnChar, h]
      rw [hsplit]
      cases hs : splitOnChar sep rest with
      | nil => exact absurd hs (splitOnChar_ne_nil sep rest)
      | cons h2 t2 =>
        rw [hs] at ih
        simp [intercalateChar, ih, h]
    · have hsplit : splitOnChar sep (c :: rest) =
          match splitOnChar sep rest with
          | [] => [[c]]
          | h :: t => (c :: h) :: t := by
        simp [splitOnChar, h]
      rw [hsplit]
      cases hs : splitOnChar sep rest with
      | nil => exact absurd hs (splitOnChar_ne_nil sep rest)
      | cons h2 t2 =>
        rw [hs] at ih
        cases t2 with
        | nil => simpa [intercalateChar] using ih
        | cons h3 t3 => simpa [intercalateChar] using ih

theorem splitOnChar_intercalateChar (sep : Char) (ls : List Str)
    (h : ls ≠ []) :
    splitOnChar sep (intercalateChar sep ls) =
      (ls.map (splitOnChar sep)).flatten := by
  induction ls with
  | nil => exact absurd rfl h
  | cons l rest ih =>
    cases rest with
    | nil => simp [intercalateChar]
    | cons l2 rest2 =>
      have : intercalateChar sep (l :: l2 :: rest2) =
          l ++ sep :: intercalateChar sep (l2 :: rest2) := rfl
      rw [this, splitOnChar_append_sep, ih (by simp)]
      simp

theorem length_le_of_dropWhile (p : Char → Bool) (s : Str) :
    (s.dropWhile p).length ≤ s.length :=
  (List.dropWhile_sublist _).length_le

theorem jsTrim_length_le (s : Str) : (jsTrim s).length ≤ s.length := by
  unfold jsTrim
  calc ((s.dropWhile isJsWhitespace).reverse.dropWhile
          isJsWhitespace).reverse.length
      = ((s.dropWhile isJsWhitespace).reverse.dropWhile
          isJsWhitespace).length := List.length_reverse _
    _ ≤ (s.dropWhile isJsWhitespace).reverse.length :=
        length_le_of_dropWhile _ _
    _ = (s.dropWhile isJsWhitespace).length := List.length_reverse _
    _ ≤ s.length := length_le_of_dropWhile _ _

theorem jsTrim_cons_ws (c : Char) (s : Str)
    (h : isJsWhitespace c = true) : jsTrim (c :: s) = jsTrim s := by
  unfold jsTrim
  rw [List.dropWhile_cons_of_pos h]

theorem dropWhile_eq_self_of_trimStable (s : Str) (h : jsTrim s = s) :
    s.dropWhile isJsWhitespace = s := by
  cases s with
  | nil => rfl
  | cons c rest =>
    by_cases hc : isJsWhitespace c = true
    · exfalso
      have h1 : jsTrim (c :: rest) = jsTrim rest := jsTrim_cons_ws c rest hc
      have h2 : (jsTrim rest).length ≤ rest.length := jsTrim_length_le rest
      have h3 : (c :: rest).length = (jsTrim (c :: rest)).length := by
        rw [h]
      rw [h1] at h3
      simp only [List.length_cons] at h3
      omega
    · rw [List.dropWhile_cons_of_neg hc]

theorem jsTrim_append_ws (s : Str) (c : Char)
    (h : isJsWhitespace c = true) : jsTrim (s ++ [c]) = jsTrim s := by
  unfold jsTrim
  rw [List.dropWhile_append]
  by_cases he : (s.dropWhile isJsWhitespace).isEmpty
  · rw [if_pos he]
    have hd : List.dropWhile isJsWhitespace [c] = ([] : Str) := by
      simp [List.dropWhile, h]
    rw [hd]
    have hs : s.dropWhile isJsWhitespace = [] := by
      simpa [List.isEmpty_iff] using he
    rw [hs]
  · rw [if_neg he]
    have : (s.dropWhile isJsWhitespace ++ [c]).reverse =
        c :: (s.dropWhile isJsWhitespace).reverse := by
      simp
    rw [this, List.dropWhile_cons_of_pos h]

theorem head_not_ws_of_trimStable (c : Char) (rest : Str)
    (h : jsTrim (c :: rest) = c :: rest) : isJsWhitespace c = false := by
  by_cases hc : isJsWhitespace c = true
  · exfalso
    have := dropWhile_eq_self_of_trimStable _ h
    rw [List.dropWhile_cons_of_pos hc] at this
    have hlen := length_le_of_dropWhile isJsWhitespace rest
    rw [this] at hlen
    simp at hlen
  · simpa using hc

/-! ### Substring occurrence lemmas -/

theorem containsSub_append_mid (a pat b : Str) :
    containsSub (a ++ (pat ++ b)) pat = true := by
  induction a with
  | nil =>
    have hpp : pat.isPrefixOf (pat ++ b) = true := isPrefixOf_append_self _ _
    simp only [containsSub, List.nil_append]
    cases pb : pat ++ b with
    | nil =>
      rcases List.append_eq_nil.mp pb with ⟨hpat, hb⟩
      subst hpat; subst hb
      simp [findSub]
    | cons d rest2 =>
      rw [pb] at hpp
      simp [findSub, hpp]
  | cons c a2 ih =>
    simp only [containsSub, List.cons_append, findSub, List.append_eq]
    by_cases hp : pat.isPrefixOf (c :: (a2 ++ (pat ++ b))) = true
    · rw [if_pos hp]
      rfl
    · rw [if_neg hp]
      simp only [containsSub] at ih
      rcases Option.isSome_iff_exists.mp ih with ⟨n, hn⟩
      simp [hn]

theorem containsSub_exists_of_eq_true (s pat : Str)
    (h : containsSub s pat = true) : ∃ a b, s = a ++ (pat ++ b) := by
  rcases Option.isSome_iff_exists.mp h with ⟨n, hn⟩
  rcases findSub_eq_some pat s n hn with ⟨hpre, _⟩
  rcases List.isPrefixOf_iff_prefix.mp hpre with ⟨t, ht⟩
  refine ⟨s.take n, t, ?_⟩
  conv_lhs => rw [← List.take_append_drop n s]
  rw [← ht]

theorem star_mem_of_containsSub (s pat : Str) (c : Char) (hc : c ∈ pat)
    (h : containsSub s pat = true) : c ∈ s := by
  rcases containsSub_exists_of_eq_true s pat h with ⟨a, b, rfl⟩
  exact List.mem_append.mpr (Or.inr (List.mem_append.mpr (Or.inl hc)))

theorem containsSub_concat_false (pre value m : Str)
    (hstar : '*' ∈ m) (hspace : ' ' ∉ m)
    (hpre : containsSub pre m = false)
    (hlast : ∃ pre0, pre = pre0 ++ [' '])
    (hval : '*' ∉ value) :
    containsSub (pre ++ value) m = false := by
  by_contra hcon
  have h : containsSub (pre ++ value) m = true := eq_true_of_ne_false hcon
  rcases containsSub_exists_of_eq_true _ _ h with ⟨a, b, heq⟩
  have hmne : m ≠ [] := fun hm => by
    rw [hm] at hstar
    cases hstar
  have hL : 1 ≤ m.length := by
    cases m with
    | nil => exact absurd rfl hmne
    | cons x xs => simp
  by_cases h1 : a.length + m.length ≤ pre.length
  · have hpre_eq : pre = a ++ (m ++ b.take (pre.length - a.length - m.length)) := by
      have hh := congrArg (List.take pre.length) heq
      rw [List.take_left] at hh
      rw [List.take_append_eq_append_take,
        List.take_of_length_le (show a.length ≤ pre.length by omega),
        List.take_append_eq_append_take,
        List.take_of_length_le
          (show m.length ≤ pre.length - a.length by omega)] at hh
      exact hh
    have hc : containsSub pre m = true := by
      rw [hpre_eq]
      exact containsSub_append_mid _ _ _
    rw [hpre] at hc
    cases hc
  · by_cases h2 : pre.length ≤ a.length
    · have hval_eq : value = a.drop pre.length ++ (m ++ b) := by
        have hh := congrArg (List.drop pre.length) heq
        rw [List.drop_left] at hh
        rw [List.drop_append_eq_append_drop] at hh
        have hz : pre.length - a.length = 0 := by omega
        rw [hz, List.drop_zero] at hh
        exact hh
      have hc : containsSub value m = true := by
        rw [hval_eq]
        exact containsSub_append_mid _ _ _
      exact hval (star_mem_of_containsSub _ _ '*' hstar hc)
    · have hla : a.length < pre.length := by omega
      have hpre_eq : pre = a ++ m.take (pre.length - a.length) := by
        have hh := congrArg (List.take pre.length) heq
        rw [List.take_left] at hh
        rw [List.take_append_eq_append_take,
          List.take_of_length_le (le_of_lt hla),
          List.take_append_eq_append_take] at hh
        have hz : pre.length - a.length - m.length = 0 := by omega
        rw [hz, List.take_zero, List.append_nil] at hh
        exact hh
      rcases hlast with ⟨pre0, hpre0⟩
      have htk_ne : m.take (pre.length - a.length) ≠ [] := by
        have hlen : (m.take (pre.length - a.length)).length =
            min (pre.length - a.length) m.length := List.length_take _ _
        intro hnil
        rw [hnil] at hlen
        simp only [List.length_nil] at hlen
        omega
      have hlast1 : pre.getLast? = some ' ' := by
        rw [hpre0]
        exact List.getLast?_concat _
      rw [hpre_eq, List.getLast?_append] at hlast1
      cases htk : (m.take (pre.length - a.length)).getLast? with
      | none => exact htk_ne (List.getLast?_eq_none_iff.mp htk)
      | some x =>
        rw [htk] at hlast1
        simp only [Option.or_some, Option.some.injEq] at hlast1
        subst hlast1
        exact hspace ((List.take_subset _ _) (List.mem_of_getLast?_eq_some htk))

theorem containsSub_eq_false_of_not_mem (s pat : Str) (c : Char)
    (hc : c ∈ pat) (hs : c ∉ s) : containsSub s pat = false := by
  cases h : containsSub s pat with
  | false => rfl
  | true => exact absurd (star_mem_of_containsSub s pat c hc h) hs

theorem afterLastMarker_none (m s : Str) (h : containsSub s m = false) :
    afterLastMarker m s = none := by
  induction s with
  | nil =>
    have hp : m.isPrefixOf ([] : Str) = false := by
      by_cases hp : m.isPrefixOf ([] : Str) = true
      · exfalso
        simp [containsSub, findSub, hp] at h
      · exact Bool.eq_false_iff.mpr hp
    simp [afterLastMarker, hp]
  | cons c rest ih =>
    have hp : m.isPrefixOf (c :: rest) = false := by
      by_cases hp : m.isPrefixOf (c :: rest) = true
      · exfalso
        simp [containsSub, findSub, hp] at h
      · exact Bool.eq_false_iff.mpr hp
    have hr : containsSub rest m = false := by
      simp only [containsSub, findSub, hp, Bool.false_eq_true, if_false] at h
      simp only [containsSub]
      cases hf : findSub m rest with
      | none => rfl
      | some n =>
        rw [hf] at h
        simp at h
    simp only [afterLastMarker, ih hr, hp, Bool.false_eq_true, if_false]

theorem afterLastMarker_here (m tail : Str) (hm : m ≠ [])
    (h : containsSub (m.drop 1 ++ tail) m = false) :
    afterLastMarker m (m ++ tail) = some tail := by
  cases m with
  | nil => exact absurd rfl hm
  | cons c m2 =>
    have hrest : afterLastMarker (c :: m2) (m2 ++ tail) = none :=
      afterLastMarker_none _ _ (by simpa using h)
    have hpre : (c :: m2).isPrefixOf ((c :: m2) ++ tail) = true :=
      isPrefixOf_append_self _ _
    have hdrop : ((c :: m2) ++ tail).drop (c :: m2).length = tail :=
      List.drop_left _ _
    simp only [List.cons_append] at hrest hpre hdrop ⊢
    simp only [afterLastMarker, hrest, hpre, if_true, hdrop]

theorem afterLastMarker_cons_of_some (m : Str) (c : Char) (rest r : Str)
    (h : afterLastMarker m rest = some r) :
    afterLastMarker m (c :: rest) = some r := by
  simp only [afterLastMarker, h]

/-- The generic shape of every metadata line `- **f**: value`: the first
line containing the marker yields `value` back through `extractField`,
provided the marker occurs nowhere else on it. -/
theorem extractField_eq (lines1 : List Str) (f value : Str)
    (rest : List Str)
    (hskip : ∀ l ∈ lines1, containsSub l (fieldMarker f) = false)
    (hno : containsSub ((fieldMarker f).drop 1 ++ (' ' :: value))
        (fieldMarker f) = false)
    (hdw : value.dropWhile isJsWhitespace = value)
    (htr : jsTrim value = value) :
    extractField
      (lines1 ++ (("- ".toList ++ (fieldMarker f ++ (' ' :: value))) :: rest))
      f = value := by
  have hfind1 : lines1.find? (fun l => containsSub l (fieldMarker f)) =
      none :=
    List.find?_eq_none.mpr fun l hl => by simp [hskip l hl]
  have hline : containsSub ("- ".toList ++ (fieldMarker f ++ (' ' :: value)))
      (fieldMarker f) = true := containsSub_append_mid _ _ _
  have hfind : (lines1 ++ (("- ".toList ++ (fieldMarker f ++ (' ' :: value)))
        :: rest)).find? (fun l => containsSub l (fieldMarker f)) =
      some ("- ".toList ++ (fieldMarker f ++ (' ' :: value))) := by
    rw [List.find?_append, hfind1, Option.none_or,
      List.find?_cons_of_pos _ (by simpa using hline)]
  have hmne : fieldMarker f ≠ [] := by
    simp [fieldMarker]
  have halm : afterLastMarker (fieldMarker f)
      ("- ".toList ++ (fieldMarker f ++ (' ' :: value))) =
      some (' ' :: value) := by
    have h0 : afterLastMarker (fieldMarker f)
        (fieldMarker f ++ (' ' :: value)) = some (' ' :: value) :=
      afterLastMarker_here _ _ hmne hno
    have h1 := afterLastMarker_cons_of_some (fieldMarker f) ' ' _ _ h0
    have h2 := afterLastMarker_cons_of_some (fieldMarker f) '-' _ _ h1
    simpa using h2
  have hsuffix : (' ' :: value).dropWhile isJsWhitespace = value := by
    rw [List.dropWhile_cons_of_pos (by decide), hdw]
  simp only [extractField, hfind, halm, hsuffix, htr]


/-! ### Trim-stability of composite strings -/

theorem revDropWhile_eq_self_of_trimStable (s : Str) (h : jsTrim s = s) :
    s.reverse.dropWhile isJsWhitespace = s.reverse := by
  have h1 := dropWhile_eq_self_of_trimStable s h
  unfold jsTrim at h
  rw [h1] at h
  have h2 := congrArg List.reverse h
  rw [List.reverse_reverse] at h2
  exact h2

theorem jsTrim_of_drops (s : Str)
    (h1 : s.dropWhile isJsWhitespace = s)
    (h2 : s.reverse.dropWhile isJsWhitespace = s.reverse) :
    jsTrim s = s := by
  unfold jsTrim
  rw [h1, h2, List.reverse_reverse]

theorem dropWhile_append_of_stable (a b : Str)
    (ha : a.dropWhile isJsWhitespace = a) (hane : a ≠ []) :
    (a ++ b).dropWhile isJsWhitespace = a ++ b := by
  rw [List.dropWhile_append]
  have hne : (a.dropWhile isJsWhitespace).isEmpty = false := by
    rw [ha]
    simpa [List.isEmpty_iff] using hane
  rw [hne]
  simp [ha]

/-- Trim-stability of a concatenation whose two ends are trim-stable and
nonempty. -/
theorem jsTrim_append_of_stable (a b : Str)
    (ha : jsTrim a = a) (hane : a ≠ [])
    (hb : jsTrim b = b) (hbne : b ≠ []) :
    jsTrim (a ++ b) = a ++ b := by
  apply jsTrim_of_drops
  · exact dropWhile_append_of_stable a b
      (dropWhile_eq_self_of_trimStable a ha) hane
  · rw [List.reverse_append]
    exact dropWhile_append_of_stable b.reverse a.reverse
      (revDropWhile_eq_self_of_trimStable b hb)
      (by simpa using hbne)

/-- The trimmed form of a non-whitespace-headed string keeps its head. -/
theorem jsTrim_head_of_not_ws (c : Char) (s : Str)
    (hc : isJsWhitespace c = false) :
    ∃ t, jsTrim (c :: s) = c :: t := by
  unfold jsTrim
  rw [List.dropWhile_cons_of_neg (by simp [hc])]
  have hrev : (c :: s).reverse = s.reverse ++ [c] := by simp
  rw [hrev, List.dropWhile_append]
  by_cases he : (s.reverse.dropWhile isJsWhitespace).isEmpty
  · rw [if_pos he]
    refine ⟨[], ?_⟩
    rw [List.dropWhile_cons_of_neg (by simp [hc])]
    simp
  · rw [if_neg he]
    refine ⟨(s.reverse.dropWhile isJsWhitespace).reverse, ?_⟩
    rw [List.reverse_append]
    simp


/-! ### findIndex scan lemmas -/

theorem findIdxP_cons_pos (p : Str → Bool) (l : Str) (rest : List Str)
    (i : Nat) (h : p l = true) : findIdxP p (l :: rest) i = some i := by
  simp [findIdxP, h]

theorem findIdxP_cons_neg (p : Str → Bool) (l : Str) (rest : List Str)
    (i : Nat) (h : p l = false) :
    findIdxP p (l :: rest) i = findIdxP p rest (i + 1) := by
  simp [findIdxP, h]

theorem findIdxP_append_none (p : Str → Bool) (ls rest : List Str) :
    ∀ (i : Nat), (∀ l ∈ ls, p l = false) →
      findIdxP p (ls ++ rest) i = findIdxP p rest (i + ls.length) := by
  induction ls with
  | nil => intro i _; simp
  | cons l ls2 ih =>
    intro i h
    have hl : p l = false := h l (List.mem_cons_self _ _)
    rw [List.cons_append, findIdxP_cons_neg p l _ i hl,
      ih (i + 1) fun x hx => h x (List.mem_cons_of_mem _ hx)]
    congr 1
    simp only [List.length_cons]
    omega

theorem findIdxAfter_cons_pos (p : Str → Bool) (start : Int) (l : Str)
    (rest : List Str) (i : Nat) (h1 : start < (i : Int)) (h2 : p l = true) :
    findIdxAfter p start (l :: rest) i = some i := by
  simp [findIdxAfter, h1, h2]

theorem findIdxAfter_cons_neg (p : Str → Bool) (start : Int) (l : Str)
    (rest : List Str) (i : Nat)
    (h : (decide (start < (i : Int)) && p l) = false) :
    findIdxAfter p start (l :: rest) i = findIdxAfter p start rest (i + 1) := by
  simp only [findIdxAfter, h, Bool.false_eq_true, if_false]

theorem findIdxAfter_append_none (p : Str → Bool) (start : Int)
    (ls rest : List Str) :
    ∀ (i : Nat), (∀ l ∈ ls, p l = false) →
      findIdxAfter p start (ls ++ rest) i =
        findIdxAfter p start rest (i + ls.length) := by
  induction ls with
  | nil => intro i _; simp
  | cons l ls2 ih =>
    intro i h
    have hl : p l = false := h l (List.mem_cons_self _ _)
    rw [List.cons_append,
      findIdxAfter_cons_neg p start l _ i (by rw [hl, Bool.and_false]),
      ih (i + 1) fun x hx => h x (List.mem_cons_of_mem _ hx)]
    congr 1
    simp only [List.length_cons]
    omega

theorem findIdxAfter_append_le (p : Str → Bool) (start : Int)
    (ls rest : List Str) :
    ∀ (i : Nat), ((i : Int) + ls.length ≤ start + 1) →
      findIdxAfter p start (ls ++ rest) i =
        findIdxAfter p start rest (i + ls.length) := by
  induction ls with
  | nil => intro i _; simp
  | cons l ls2 ih =>
    intro i h
    have hle : ¬ start < (i : Int) := by
      simp only [List.length_cons] at h
      push_cast at h
      omega
    rw [List.cons_append,
      findIdxAfter_cons_neg p start l _ i
        (by rw [decide_eq_false hle, Bool.false_and]),
      ih (i + 1) (by simp only [List.length_cons] at h; push_cast at h ⊢; omega)]
    congr 1
    simp only [List.length_cons]
    omega

/-! ### Joined spec-list lemmas -/

theorem ics_ne_nil (l : Str) (ls : List Str) (h : l ≠ []) :
    intercalateCommaSpace (l :: ls) ≠ [] := by
  cases ls with
  | nil => simpa [intercalateCommaSpace] using h
  | cons l2 ls2 =>
    simp only [intercalateCommaSpace]
    intro he
    rcases List.append_eq_nil.mp he with ⟨h1, _⟩
    exact h h1

theorem mem_ics (c : Char) (ls : List Str)
    (h : c ∈ intercalateCommaSpace ls) :
    (∃ l ∈ ls, c ∈ l) ∨ c = ',' ∨ c = ' ' := by
  induction ls with
  | nil => simp [intercalateCommaSpace] at h
  | cons l ls2 ih =>
    cases ls2 with
    | nil =>
      simp only [intercalateCommaSpace] at h
      exact Or.inl ⟨l, List.mem_cons_self _ _, h⟩
    | cons l2 ls3 =>
      simp only [intercalateCommaSpace] at h
      rcases List.mem_append.mp h with h1 | h2
      · exact Or.inl ⟨l, List.mem_cons_self _ _, h1⟩
      · rcases List.mem_cons.mp h2 with rfl | h3
        · exact Or.inr (Or.inl rfl)
        · rcases List.mem_cons.mp h3 with rfl | h4
          · exact Or.inr (Or.inr rfl)
          · rcases ih h4 with ⟨l2, hl2, hc⟩ | hr
            · exact Or.inl ⟨l2, List.mem_cons_of_mem _ hl2, hc⟩
            · exact Or.inr hr

theorem ics_dropWhile (ls : List Str)
    (h : ∀ s ∈ ls, s ≠ [] ∧ jsTrim s = s) :
    (intercalateCommaSpace ls).dropWhile isJsWhitespace =
      intercalateCommaSpace ls := by
  cases ls with
  | nil => rfl
  | cons l ls2 =>
    rcases h l (List.mem_cons_self _ _) with ⟨hne, htr⟩
    cases ls2 with
    | nil =>
      simpa [intercalateCommaSpace] using
        dropWhile_eq_self_of_trimStable l htr
    | cons l2 ls3 =>
      simp only [intercalateCommaSpace]
      exact dropWhile_append_of_stable l _
        (dropWhile_eq_self_of_trimStable l htr) hne

theorem ics_trimStable (ls : List Str)
    (h : ∀ s ∈ ls, s ≠ [] ∧ jsTrim s = s) :
    jsTrim (intercalateCommaSpace ls) = intercalateCommaSpace ls := by
  induction ls with
  | nil => rfl
  | cons l ls2 ih =>
    rcases h l (List.mem_cons_self _ _) with ⟨hne, htr⟩
    cases ls2 with
    | nil => simpa [intercalateCommaSpace] using htr
    | cons l2 ls3 =>
      have hics : intercalateCommaSpace (l :: l2 :: ls3) =
          l ++ (',' :: ' ' :: intercalateCommaSpace (l2 :: ls3)) := rfl
      rw [hics]
      have htail := ih fun s hs => h s (List.mem_cons_of_mem _ hs)
      rcases h l2 (List.mem_cons_of_mem _ (List.mem_cons_self _ _)) with
        ⟨hne2, _⟩
      have htne : intercalateCommaSpace (l2 :: ls3) ≠ [] :=
        ics_ne_nil l2 ls3 hne2
      have hM_dw : (',' :: ' ' :: intercalateCommaSpace (l2 :: ls3)).dropWhile
          isJsWhitespace = ',' :: ' ' :: intercalateCommaSpace (l2 :: ls3) := by
        rw [List.dropWhile_cons_of_neg (by decide)]
      have hM_rev : (',' :: ' ' :: intercalateCommaSpace (l2 :: ls3)).reverse.dropWhile
          isJsWhitespace = (',' :: ' ' :: intercalateCommaSpace (l2 :: ls3)).reverse := by
        have hrw : (',' :: ' ' :: intercalateCommaSpace (l2 :: ls3)).reverse =
            (intercalateCommaSpace (l2 :: ls3)).reverse ++ [' ', ','] := by simp
        rw [hrw]
        exact dropWhile_append_of_stable _ _
          (revDropWhile_eq_self_of_trimStable _ htail) (by simpa using htne)
      exact jsTrim_append_of_stable l _ htr hne
        (jsTrim_of_drops _ hM_dw hM_rev) (by simp)

theorem splitOnChar_comma_ics (l : Str) (ls : List Str)
    (h : ∀ s ∈ l :: ls, ',' ∉ s) :
    splitOnChar ',' (intercalateCommaSpace (l :: ls)) =
      l :: ls.map (fun s => ' ' :: s) := by
  induction ls generalizing l with
  | nil =>
    simp only [intercalateCommaSpace, List.map_nil]
    exact splitOnChar_of_not_mem ',' l (h l (List.mem_cons_self _ _))
  | cons l2 ls2 ih =>
    have hics : intercalateCommaSpace (l :: l2 :: ls2) =
        l ++ ',' :: (' ' :: intercalateCommaSpace (l2 :: ls2)) := rfl
    rw [hics, splitOnChar_append_sep,
      splitOnChar_of_not_mem ',' l (h l (List.mem_cons_self _ _))]
    have hih := ih l2 fun s hs => h s (List.mem_cons_of_mem _ hs)
    have hsp : splitOnChar ',' (' ' :: intercalateCommaSpace (l2 :: ls2)) =
        (' ' :: l2) :: ls2.map (fun s => ' ' :: s) := by
      have hne : ¬ (' ' = ',') := by decide
      simp only [splitOnChar, if_neg hne, hih]
    rw [hsp]
    simp

/-- The parser's specs pipeline undoes the serializer's join for nonempty,
comma-free, trim-stable spec paths. -/
theorem parseSpecs_ics (l : Str) (ls : List Str)
    (h : ∀ s ∈ l :: ls, s ≠ [] ∧ ',' ∉ s ∧ jsTrim s = s) :
    (((splitOnChar ',' (intercalateCommaSpace (l :: ls))).map jsTrim).filter
        fun s => !s.isEmpty) = l :: ls := by
  rw [splitOnChar_comma_ics l ls fun s hs => (h s hs).2.1]
  have hmap : (l :: ls.map (fun s => ' ' :: s)).map jsTrim = l :: ls := by
    simp only [List.map_cons, (h l (List.mem_cons_self _ _)).2.2, List.map_map]
    congr 1
    calc ls.map (jsTrim ∘ fun s => ' ' :: s) = ls.map id := by
          apply List.map_congr_left
          intro s hs
          show jsTrim (' ' :: s) = id s
          rw [jsTrim_cons_ws ' ' s (by decide)]
          exact (h s (List.mem_cons_of_mem _ hs)).2.2
      _ = ls := List.map_id ls
  rw [hmap, List.filter_eq_self.mpr]
  intro s hs
  have hne : s ≠ [] := (h s hs).1
  simpa [List.isEmpty_iff] using hne

/-! ### Line-list shape of the serialized issue -/

theorem flatten_singletons (ls : List Str) :
    (ls.map (fun l => [l])).flatten = ls := by
  induction ls with
  | nil => rfl
  | cons l ls2 ih => simp [ih]

theorem intercalateChar_append_nil (sep : Char) (ls : List Str)
    (h : ls ≠ []) :
    intercalateChar sep (ls ++ [[]]) = intercalateChar sep ls ++ [sep] := by
  induction ls with
  | nil => exact absurd rfl h
  | cons l ls2 ih =>
    cases ls2 with
    | nil => simp [intercalateChar]
    | cons l2 ls3 =>
      have h1 : intercalateChar sep ((l :: l2 :: ls3) ++ [[]]) =
          l ++ sep :: intercalateChar sep ((l2 :: ls3) ++ [[]]) := rfl
      have h2 : intercalateChar sep (l :: l2 :: ls3) =
          l ++ sep :: intercalateChar sep (l2 :: ls3) := rfl
      rw [h1, h2, ih (by simp)]
      simp

/-- The slug recomputation from a filename `ID-slug.md` with an all-digit
id returns the slug. -/
theorem slug_of_filename (id slug : Str) (hid : id ≠ [])
    (hdig : ∀ c ∈ id, c.isDigit = true) :
    stripMdSuffix (stripLeadingDigitsDash
      (id ++ '-' :: (slug ++ ".md".toList))) = slug := by
  have hld : leadingDigits (id ++ '-' :: (slug ++ ".md".toList)) = id := by
    unfold leadingDigits
    exact takeWhile_append_stop _ id '-' _ hdig (by decide)
  have hstrip : stripLeadingDigitsDash (id ++ '-' :: (slug ++ ".md".toList)) =
      slug ++ ".md".toList := by
    simp only [stripLeadingDigitsDash, hld]
    rw [if_pos hid]
    have hdrop : (id ++ '-' :: (slug ++ ".md".toList)).drop id.length =
        '-' :: (slug ++ ".md".toList) := List.drop_left _ _
    rw [hdrop]
    rfl
  rw [hstrip]
  unfold stripMdSuffix
  have hsuf : (".md".toList).isSuffixOf (slug ++ ".md".toList) = true :=
    List.isSuffixOf_iff_suffix.mpr ⟨slug, rfl⟩
  rw [if_pos hsuf]
  have hlen : (slug ++ ".md".toList).length - 3 = slug.length := by simp
  rw [hlen]
  exact List.take_left' rfl

/-! ### Per-line facts feeding the parser scans -/

theorem ne_of_second (c a b : Char) (x y : Str) (h : a ≠ b) :
    (c :: a :: x) ≠ (c :: b :: y) := by
  intro he
  injection he with h1 h2
  injection h2 with h3 _
  exact h h3

theorem head_eq_of_isPrefixOf_cons (c : Char) (p s : Str)
    (h : (c :: p).isPrefixOf s = true) : ∃ t, s = c :: t := by
  cases s with
  | nil => simp at h
  | cons d rest =>
    rw [List.isPrefixOf_cons₂] at h
    rcases (Bool.and_eq_true _ _).mp h with ⟨h1, _⟩
    refine ⟨rest, ?_⟩
    have hcd : c = d := eq_of_beq h1
    rw [hcd]

theorem not_hash_prefix_of_trimHead (l : Str)
    (h : (jsTrim l).head? ≠ some '#') (pre : Str) :
    ('#' :: pre).isPrefixOf l = false := by
  cases l with
  | nil => rfl
  | cons c rest =>
    by_cases hc : c = '#'
    · subst hc
      rcases jsTrim_head_of_not_ws '#' rest (by decide) with ⟨t, ht⟩
      rw [ht] at h
      simp at h
    · have hne : ('#' == c) = false :=
        beq_eq_false_iff_ne.mpr fun he => hc he.symm
      rw [List.isPrefixOf_cons₂, hne, Bool.false_and]

theorem trim_beq_hash_false (l : Str)
    (h : (jsTrim l).head? ≠ some '#') (t : Str) :
    (jsTrim l == ('#' :: t)) = false :=
  beq_eq_false_iff_ne.mpr fun he => h (by rw [he]; rfl)

theorem trimHead_ne_hash_of_head (c : Char) (rest : Str) (hc : c ≠ '#')
    (hw : isJsWhitespace c = false) :
    (jsTrim (c :: rest)).head? ≠ some '#' := by
  rcases jsTrim_head_of_not_ws c rest hw with ⟨t, ht⟩
  rw [ht]
  simp only [List.head?_cons, Option.some.injEq]
  exact fun he => hc (Option.some.inj he)

theorem parseLogHeader_eq_none (l : Str)
    (h : (jsTrim l).head? ≠ some '#') : parseLogHeader l = none := by
  unfold parseLogHeader
  have hp : ("### ".toList).isPrefixOf l = false :=
    not_hash_prefix_of_trimHead l h ("## ".toList)
  rw [hp]
  simp

theorem agentLogAux_no_header (ls : List Str)
    (h : ∀ l ∈ ls, parseLogHeader l = none) :
    agentLogAux ls none = [] := by
  induction ls with
  | nil => rfl
  | cons l rest ih =>
    simp only [agentLogAux, h l (List.mem_cons_self _ _)]
    exact ih fun x hx => h x (List.mem_cons_of_mem _ hx)

/-! ### The serialized issue as a line list -/

/-- The line list an agent-log-free, newline-disciplined issue serializes
to: the join/split round trip recovers exactly these lines. -/
def serializedLines (issue : Issue) : List Str :=
  ("# ".toList ++ issue.title) :: [] ::
  ("- **id**: ".toList ++ issue.id) ::
  ("- **status**: ".toList ++ issue.status) ::
  ("- **created**: ".toList ++ issue.created) ::
  ("- **branch**: ".toList ++ issue.branch) ::
  ("- **specs**: ".toList ++ intercalateCommaSpace issue.specs) ::
  ("- **priority**: ".toList ++ issue.priority) :: [] ::
  ("## Description".toList) :: [] ::
  (splitOnChar '\n' issue.description ++
    ([] :: ("## Acceptance Criteria".toList) :: [] ::
      (issue.acceptanceCriteria ++ [[], "## Agent Log".toList, []])))

theorem serializeIssue_lines (issue : Issue)
    (h0 : '\n' ∉ issue.title) (h2 : '\n' ∉ issue.id)
    (h3 : '\n' ∉ issue.status) (h4 : '\n' ∉ issue.created)
    (h5 : '\n' ∉ issue.branch)
    (h6 : '\n' ∉ intercalateCommaSpace issue.specs)
    (h7 : '\n' ∉ issue.priority)
    (hac : ∀ ac ∈ issue.acceptanceCriteria,
      ("- [".toList).isPrefixOf ac = true ∧ '\n' ∉ ac)
    (hlog : issue.agentLog = []) :
    splitOnChar '\n' (serializeIssue issue) = serializedLines issue := by
  unfold serializeIssue
  rw [hlog]
  have hacmap : issue.acceptanceCriteria.map (fun ac =>
      if ("- [".toList).isPrefixOf ac then ac
      else ("- [ ] ".toList) ++ ac) = issue.acceptanceCriteria :=
    calc issue.acceptanceCriteria.map (fun ac =>
          if ("- [".toList).isPrefixOf ac then ac
          else ("- [ ] ".toList) ++ ac)
        = issue.acceptanceCriteria.map id :=
          List.map_congr_left fun ac hm => by
            rw [if_pos ((hac ac hm).1)]
            rfl
      _ = issue.acceptanceCriteria := List.map_id _
  rw [hacmap]
  rw [splitOnChar_intercalateChar '\n' _ (by simp)]
  have hs0 : splitOnChar '\n' ("# ".toList ++ issue.title) =
      [("# ".toList ++ issue.title)] :=
    splitOnChar_of_not_mem _ _ (List.not_mem_append (by decide) h0)
  have hs2 : splitOnChar '\n' ("- **id**: ".toList ++ issue.id) =
      [("- **id**: ".toList ++ issue.id)] :=
    splitOnChar_of_not_mem _ _ (List.not_mem_append (by decide) h2)
  have hs3 : splitOnChar '\n' ("- **status**: ".toList ++ issue.status) =
      [("- **status**: ".toList ++ issue.status)] :=
    splitOnChar_of_not_mem _ _ (List.not_mem_append (by decide) h3)
  have hs4 : splitOnChar '\n' ("- **created**: ".toList ++ issue.created) =
      [("- **created**: ".toList ++ issue.created)] :=
    splitOnChar_of_not_mem _ _ (List.not_mem_append (by decide) h4)
  have hs5 : splitOnChar '\n' ("- **branch**: ".toList ++ issue.branch) =
      [("- **branch**: ".toList ++ issue.branch)] :=
    splitOnChar_of_not_mem _ _ (List.not_mem_append (by decide) h5)
  have hs6 : splitOnChar '\n'
      ("- **specs**: ".toList ++ intercalateCommaSpace issue.specs) =
      [("- **specs**: ".toList ++ intercalateCommaSpace issue.specs)] :=
    splitOnChar_of_not_mem _ _ (List.not_mem_append (by decide) h6)
  have hs7 : splitOnChar '\n' ("- **priority**: ".toList ++ issue.priority) =
      [("- **priority**: ".toList ++ issue.priority)] :=
    splitOnChar_of_not_mem _ _ (List.not_mem_append (by decide) h7)
  have hsacs : issue.acceptanceCriteria.map (splitOnChar '\n') =
      issue.acceptanceCriteria.map (fun ac => [ac]) :=
    List.map_congr_left fun ac hm =>
      splitOnChar_of_not_mem _ _ ((hac ac hm).2)
  simp only [List.map_append, List.map_cons, List.map_nil, hs0, hs2, hs3,
    hs4, hs5, hs6, hs7, hsacs, List.flatten_append, List.flatten_cons,
    List.flatten_nil, flatten_singletons, serializedLines]
  simp [List.append_assoc, splitOnChar]

theorem title_line_no_marker (title m : Str) (hstar : '*' ∈ m)
    (ht : '*' ∉ title) : containsSub ("# ".toList ++ title) m = false :=
  containsSub_eq_false_of_not_mem _ _ '*' hstar
    (List.not_mem_append (by decide) ht)

theorem serializedLines_extract_id (issue : Issue)
    (hvt : '*' ∉ issue.title) (hv : '*' ∉ issue.id)
    (htr : jsTrim issue.id = issue.id) :
    extractField (serializedLines issue) ("id".toList) = issue.id := by
  have hskip : ∀ l ∈ [("# ".toList ++ issue.title), ([] : Str)],
      containsSub l (fieldMarker ("id".toList)) = false := by
    intro l hl
    rcases List.mem_cons.mp hl with rfl | hl
    · exact title_line_no_marker _ _ (by decide) hvt
    rcases List.mem_cons.mp hl with rfl | hl
    · decide
    simp at hl
  have hno : containsSub ((fieldMarker ("id".toList)).drop 1 ++
      (' ' :: issue.id)) (fieldMarker ("id".toList)) = false := by
    have hre : (fieldMarker ("id".toList)).drop 1 ++ (' ' :: issue.id) =
        ((fieldMarker ("id".toList)).drop 1 ++ [' ']) ++ issue.id := by
      simp
    rw [hre]
    exact containsSub_concat_false _ _ _ (by decide) (by decide) (by decide)
      ⟨(fieldMarker ("id".toList)).drop 1, rfl⟩ hv
  unfold serializedLines
  exact extractField_eq [("# ".toList ++ issue.title), ([] : Str)]
    ("id".toList) issue.id
    (("- **status**: ".toList ++ issue.status) ::
     ("- **created**: ".toList ++ issue.created) ::
     ("- **branch**: ".toList ++ issue.branch) ::
     ("- **specs**: ".toList ++ intercalateCommaSpace issue.specs) ::
     ("- **priority**: ".toList ++ issue.priority) :: [] ::
     ("## Description".toList) :: [] ::
     (splitOnChar '\n' issue.description ++
       ([] :: ("## Acceptance Criteria".toList) :: [] ::
         (issue.acceptanceCriteria ++ [[], "## Agent Log".toList, []]))))
    hskip hno (dropWhile_eq_self_of_trimStable _ htr) htr

theorem serializedLines_extract_status (issue : Issue)
    (hvt : '*' ∉ issue.title)
    (hv0 : '*' ∉ issue.id)
    (hv1 : '*' ∉ issue.status)
    (htr : jsTrim issue.status = issue.status) :
    extractField (serializedLines issue) ("status".toList) = issue.status := by
  have hskip : ∀ l ∈ [("# ".toList ++ issue.title),
       ([] : Str),
       ("- **id**: ".toList ++ issue.id)],
      containsSub l (fieldMarker ("status".toList)) = false := by
    intro l hl
    rcases List.mem_cons.mp hl with rfl | hl
    · exact title_line_no_marker _ _ (by decide) hvt
    rcases List.mem_cons.mp hl with rfl | hl
    · decide
    rcases List.mem_cons.mp hl with rfl | hl
    · exact containsSub_concat_false ("- **id**: ".toList) _ _
        (by decide) (by decide) (by decide) ⟨"- **id**:".toList, rfl⟩ hv0
    simp at hl
  have hno : containsSub ((fieldMarker ("status".toList)).drop 1 ++
      (' ' :: issue.status)) (fieldMarker ("status".toList)) = false := by
    have hre : (fieldMarker ("status".toList)).drop 1 ++ (' ' :: issue.status) =
        ((fieldMarker ("status".toList)).drop 1 ++ [' ']) ++ issue.status := by
      simp
    rw [hre]
    exact containsSub_concat_false _ _ _ (by decide) (by decide) (by decide)
      ⟨(fieldMarker ("status".toList)).drop 1, rfl⟩ hv1
  unfold serializedLines
  exact extractField_eq [("# ".toList ++ issue.title),
       ([] : Str),
       ("- **id**: ".toList ++ issue.id)]
    ("status".toList) (issue.status)
    (("- **created**: ".toList ++ issue.created) ::
     ("- **branch**: ".toList ++ issue.branch) ::
     ("- **specs**: ".toList ++ intercalateCommaSpace issue.specs) ::
     ("- **priority**: ".toList ++ issue.priority) ::
     [] ::
     ("## Description".toList) ::
     [] ::
     (splitOnChar '\n' issue.description ++
       ([] :: ("## Acceptance Criteria".toList) :: [] ::
         (issue.acceptanceCriteria ++ [[], "## Agent Log".toList, []]))))
    hskip hno (dropWhile_eq_self_of_trimStable _ htr) htr

theorem serializedLines_extract_created (issue : Issue)
    (hvt : '*' ∉ issue.title)
    (hv0 : '*' ∉ issue.id)
    (hv1 : '*' ∉ issue.status)
    (hv2 : '*' ∉ issue.created)
    (htr : jsTrim issue.created = issue.created) :
    extractField (serializedLines issue) ("created".toList) = issue.created := by
  have hskip : ∀ l ∈ [("# ".toList ++ issue.title),
       ([] : Str),
       ("- **id**: ".toList ++ issue.id),
       ("- **status**: ".toList ++ issue.status)],
      containsSub l (fieldMarker ("created".toList)) = false := by
    intro l hl
    rcases List.mem_cons.mp hl with rfl | hl
    · exact title_line_no_marker _ _ (by decide) hvt
    rcases List.mem_cons.mp hl with rfl | hl
    · decide
    rcases List.mem_cons.mp hl with rfl | hl
    · exact containsSub_concat_false ("- **id**: ".toList) _ _
        (by decide) (by decide) (by decide) ⟨"- **id**:".toList, rfl⟩ hv0
    rcases List.mem_cons.mp hl with rfl | hl
    · exact containsSub_concat_false ("- **status**: ".toList) _ _
        (by decide) (by decide) (by decide) ⟨"- **status**:".toList, rfl⟩ hv1
    simp at hl
  have hno : containsSub ((fieldMarker ("created".toList)).drop 1 ++
      (' ' :: issue.created)) (fieldMarker ("created".toList)) = false := by
    have hre : (fieldMarker ("created".toList)).drop 1 ++ (' ' :: issue.created) =
        ((fieldMarker ("created".toList)).drop 1 ++ [' ']) ++ issue.created := by
      simp
    rw [hre]
    exact containsSub_concat_false _ _ _ (by decide) (by decide) (by decide)
      ⟨(fieldMarker ("created".toList)).drop 1, rfl⟩ hv2
  unfold serializedLines
  exact extractField_eq [("# ".toList ++ issue.title),
       ([] : Str),
       ("- **id**: ".toList ++ issue.id),
       ("- **status**: ".toList ++ issue.status)]
    ("created".toList) (issue.created)
    (("- **branch**: ".toList ++ issue.branch) ::
     ("- **specs**: ".toList ++ intercalateCommaSpace issue.specs) ::
     ("- **priority**: ".toList ++ issue.priority) ::
     [] ::
     ("## Description".toList) ::
     [] ::
     (splitOnChar '\n' issue.description ++
       ([] :: ("## Acceptance Criteria".toList) :: [] ::
         (issue.acceptanceCriteria ++ [[], "## Agent Log".toList, []]))))
    hskip hno (dropWhile_eq_self_of_trimStable _ htr) htr

theorem serializedLines_extract_branch (issue : Issue)
    (hvt : '*' ∉ issue.title)
    (hv0 : '*' ∉ issue.id)
    (hv1 : '*' ∉ issue.status)
    (hv2 : '*' ∉ issue.created)
    (hv3 : '*' ∉ issue.branch)
    (htr : jsTrim issue.branch = issue.branch) :
    extractField (serializedLines issue) ("branch".toList) = issue.branch := by
  have hskip : ∀ l ∈ [("# ".toList ++ issue.title),
       ([] : Str),
       ("- **id**: ".toList ++ issue.id),
       ("- **status**: ".toList ++ issue.status),
       ("- **created**: ".toList ++ issue.created)],
      containsSub l (fieldMarker ("branch".toList)) = false := by
    intro l hl
    rcases List.mem_cons.mp hl with rfl | hl
    · exact title_line_no_marker _ _ (by decide) hvt
    rcases List.mem_cons.mp hl with rfl | hl
    · decide
    rcases List.mem_cons.mp hl with rfl | hl
    · exact containsSub_concat_false ("- **id**: ".toList) _ _
        (by decide) (by decide) (by decide) ⟨"- **id**:".toList, rfl⟩ hv0
    rcases List.mem_cons.mp hl with rfl | hl
    · exact containsSub_concat_false ("- **status**: ".toList) _ _
        (by decide) (by decide) (by decide) ⟨"- **status**:".toList, rfl⟩ hv1
    rcases List.mem_cons.mp hl with rfl | hl
    · exact containsSub_concat_false ("- **created**: ".toList) _ _
        (by decide) (by decide) (by decide) ⟨"- **created**:".toList, rfl⟩ hv2
    simp at hl
  have hno : containsSub ((fieldMarker ("branch".toList)).drop 1 ++
      (' ' :: issue.branch)) (fieldMarker ("branch".toList)) = false := by
    have hre : (fieldMarker ("branch".toList)).drop 1 ++ (' ' :: issue.branch) =
        ((fieldMarker ("branch".toList)).drop 1 ++ [' ']) ++ issue.branch := by
      simp
    rw [hre]
    exact containsSub_concat_false _ _ _ (by decide) (by decide) (by decide)
      ⟨(fieldMarker ("branch".toList)).drop 1, rfl⟩ hv3
  unfold serializedLines
  exact extractField_eq [("# ".toList ++ issue.title),
       ([] : Str),
       ("- **id**: ".toList ++ issue.id),
       ("- **status**: ".toList ++ issue.status),
       ("- **created**: ".toList ++ issue.created)]
    ("branch".toList) (issue.branch)
    (("- **specs**: ".toList ++ intercalateCommaSpace issue.specs) ::
     ("- **priority**: ".toList ++ issue.priority) ::
     [] ::
     ("## Description".toList) ::
     [] ::
     (splitOnChar '\n' issue.description ++
       ([] :: ("## Acceptance Criteria".toList) :: [] ::
         (issue.acceptanceCriteria ++ [[], "## Agent Log".toList, []]))))
    hskip hno (dropWhile_eq_self_of_trimStable _ htr) htr

theorem serializedLines_extract_specs (issue : Issue)
    (hvt : '*' ∉ issue.title)
    (hv0 : '*' ∉ issue.id)
    (hv1 : '*' ∉ issue.status)
    (hv2 : '*' ∉ issue.created)
    (hv3 : '*' ∉ issue.branch)
    (hv4 : '*' ∉ intercalateCommaSpace issue.specs)
    (htr : jsTrim (intercalateCommaSpace issue.specs) = intercalateCommaSpace issue.specs) :
    extractField (serializedLines issue) ("specs".toList) = intercalateCommaSpace issue.specs := by
  have hskip : ∀ l ∈ [("# ".toList ++ issue.title),
       ([] : Str),
       ("- **id**: ".toList ++ issue.id),
       ("- **status**: ".toList ++ issue.status),
       ("- **created**: ".toList ++ issue.created),
       ("- **branch**: ".toList ++ issue.branch)],
      containsSub l (fieldMarker ("specs".toList)) = false := by
    intro l hl
    rcases List.mem_cons.mp hl with rfl | hl
    · exact title_line_no_marker _ _ (by decide) hvt
    rcases List.mem_cons.mp hl with rfl | hl
    · decide
    rcases List.mem_cons.mp hl with rfl | hl
    · exact containsSub_concat_false ("- **id**: ".toList) _ _
        (by decide) (by decide) (by decide) ⟨"- **id**:".toList, rfl⟩ hv0
    rcases List.mem_cons.mp hl with rfl | hl
    · exact containsSub_concat_false ("- **status**: ".toList) _ _
        (by decide) (by decide) (by decide) ⟨"- **status**:".toList, rfl⟩ hv1
    rcases List.mem_cons.mp hl with rfl | hl
    · exact containsSub_concat_false ("- **created**: ".toList) _ _
        (by decide) (by decide) (by decide) ⟨"- **created**:".toList, rfl⟩ hv2
    rcases List.mem_cons.mp hl with rfl | hl
    · exact containsSub_concat_false ("- **branch**: ".toList) _ _
        (by decide) (by decide) (by decide) ⟨"- **branch**:".toList, rfl⟩ hv3
    simp at hl
  have hno : containsSub ((fieldMarker ("specs".toList)).drop 1 ++
      (' ' :: intercalateCommaSpace issue.specs)) (fieldMarker ("specs".toList)) = false := by
    have hre : (fieldMarker ("specs".toList)).drop 1 ++ (' ' :: intercalateCommaSpace issue.specs) =
        ((fieldMarker ("specs".toList)).drop 1 ++ [' ']) ++ intercalateCommaSpace issue.specs := by
      simp
    rw [hre]
    exact containsSub_concat_false _ _ _ (by decide) (by decide) (by decide)
      ⟨(fieldMarker ("specs".toList)).drop 1, rfl⟩ hv4
  unfold serializedLines
  exact extractField_eq [("# ".toList ++ issue.title),
       ([] : Str),
       ("- **id**: ".toList ++ issue.id),
       ("- **status**: ".toList ++ issue.status),
       ("- **created**: ".toList ++ issue.created),
       ("- **branch**: ".toList ++ issue.branch)]
    ("specs".toList) (intercalateCommaSpace issue.specs)
    (("- **priority**: ".toList ++ issue.priority) ::
     [] ::
     ("## Description".toList) ::
     [] ::
     (splitOnChar '\n' issue.description ++
       ([] :: ("## Acceptance Criteria".toList) :: [] ::
         (issue.acceptanceCriteria ++ [[], "## Agent Log".toList, []]))))
    hskip hno (dropWhile_eq_self_of_trimStable _ htr) htr

theorem serializedLines_extract_priority (issue : Issue)
    (hvt : '*' ∉ issue.title)
    (hv0 : '*' ∉ issue.id)
    (hv1 : '*' ∉ issue.status)
    (hv2 : '*' ∉ issue.created)
    (hv3 : '*' ∉ issue.branch)
    (hv4 : '*' ∉ intercalateCommaSpace issue.specs)
    (hv5 : '*' ∉ issue.priority)
    (htr : jsTrim issue.priority = issue.priority) :
    extractField (serializedLines issue) ("priority".toList) = issue.priority := by
  have hskip : ∀ l ∈ [("# ".toList ++ issue.title),
       ([] : Str),
       ("- **id**: ".toList ++ issue.id),
       ("- **status**: ".toList ++ issue.status),
       ("- **created**: ".toList ++ issue.created),
       ("- **branch**: ".toList ++ issue.branch),
       ("- **specs**: ".toList ++ intercalateCommaSpace issue.specs)],
      containsSub l (fieldMarker ("priority".toList)) = false := by
    intro l hl
    rcases List.mem_cons.mp hl with rfl | hl
    · exact title_line_no_marker _ _ (by decide) hvt
    rcases List.mem_cons.mp hl with rfl | hl
    · decide
    rcases List.mem_cons.mp hl with rfl | hl
    · exact containsSub_concat_false ("- **id**: ".toList) _ _
        (by decide) (by decide) (by decide) ⟨"- **id**:".toList, rfl⟩ hv0
    rcases List.mem_cons.mp hl with rfl | hl
    · exact containsSub_concat_false ("- **status**: ".toList) _ _
        (by decide) (by decide) (by decide) ⟨"- **status**:".toList, rfl⟩ hv1
    rcases List.mem_cons.mp hl with rfl | hl
    · exact containsSub_concat_false ("- **created**: ".toList) _ _
        (by decide) (by decide) (by decide) ⟨"- **created**:".toList, rfl⟩ hv2
    rcases List.mem_cons.mp hl with rfl | hl
    · exact containsSub_concat_false ("- **branch**: ".toList) _ _
        (by decide) (by decide) (by decide) ⟨"- **branch**:".toList, rfl⟩ hv3
    rcases List.mem_cons.mp hl with rfl | hl
    · exact containsSub_concat_false ("- **specs**: ".toList) _ _
        (by decide) (by decide) (by decide) ⟨"- **specs**:".toList, rfl⟩ hv4
    simp at hl
  have hno : containsSub ((fieldMarker ("priority".toList)).drop 1 ++
      (' ' :: issue.priority)) (fieldMarker ("priority".toList)) = false := by
    have hre : (fieldMarker ("priority".toList)).drop 1 ++ (' ' :: issue.priority) =
        ((fieldMarker ("priority".toList)).drop 1 ++ [' ']) ++ issue.priority := by
      simp
    rw [hre]
    exact containsSub_concat_false _ _ _ (by decide) (by decide) (by decide)
      ⟨(fieldMarker ("priority".toList)).drop 1, rfl⟩ hv5
  unfold serializedLines
  exact extractField_eq [("# ".toList ++ issue.title),
       ([] : Str),
       ("- **id**: ".toList ++ issue.id),
       ("- **status**: ".toList ++ issue.status),
       ("- **created**: ".toList ++ issue.created),
       ("- **branch**: ".toList ++ issue.branch),
       ("- **specs**: ".toList ++ intercalateCommaSpace issue.specs)]
    ("priority".toList) (issue.priority)
    ([] ::
     ("## Description".toList) ::
     [] ::
     (splitOnChar '\n' issue.description ++
       ([] :: ("## Acceptance Criteria".toList) :: [] ::
         (issue.acceptanceCriteria ++ [[], "## Agent Log".toList, []]))))
    hskip hno (dropWhile_eq_self_of_trimStable _ htr) htr

theorem title_trim (title : Str) (htr : jsTrim title = title)
    (hne : title ≠ []) :
    jsTrim ("# ".toList ++ title) = "# ".toList ++ title := by
  apply jsTrim_of_drops
  · show List.dropWhile isJsWhitespace ('#' :: (' ' :: title)) =
      "# ".toList ++ title
    rw [List.dropWhile_cons_of_neg (by decide)]
    rfl
  · rw [List.reverse_append]
    exact dropWhile_append_of_stable _ _
      (revDropWhile_eq_self_of_trimStable _ htr) (by simpa using hne)

theorem trim_dash_beq_hash_false (rest t : Str) :
    (jsTrim ('-' :: rest) == ('#' :: t)) = false := by
  rcases jsTrim_head_of_not_ws '-' rest (by decide) with ⟨u, hu⟩
  rw [hu]
  refine beq_eq_false_iff_ne.mpr ?_
  intro he
  injection he with h1 _
  exact absurd h1 (by decide)

theorem dash_list_beq_hash_false (t u : Str) :
    (('-' :: t : Str) == ('#' :: u)) = false := by
  refine beq_eq_false_iff_ne.mpr ?_
  intro he
  injection he with h1 _
  exact absurd h1 (by decide)

theorem hash_prefix_dash_false (pre t : Str) :
    ('#' :: pre).isPrefixOf ('-' :: t) = false := by
  rw [List.isPrefixOf_cons₂,
    show (('#' : Char) == '-') = false by decide, Bool.false_and]

theorem parseLogHeader_hash_space (rest : Str) :
    parseLogHeader ('#' :: ' ' :: rest) = none := by
  unfold parseLogHeader
  rw [show ("### ".toList).isPrefixOf ('#' :: ' ' :: rest) = false by
    simp [List.isPrefixOf_cons₂]]
  simp

theorem parseLogHeader_hash_hash_space (rest : Str) :
    parseLogHeader ('#' :: '#' :: ' ' :: rest) = none := by
  unfold parseLogHeader
  rw [show ("### ".toList).isPrefixOf ('#' :: '#' :: ' ' :: rest) = false by
    simp [List.isPrefixOf_cons₂]]
  simp

theorem parseLogHeader_dash (rest : Str) :
    parseLogHeader ('-' :: rest) = none := by
  unfold parseLogHeader
  rw [show ("### ".toList).isPrefixOf ('-' :: rest) = false from
    hash_prefix_dash_false _ _]
  simp

theorem intercalateChar_cons_wrap (sep : Char) (ls : List Str)
    (h : ls ≠ []) :
    intercalateChar sep ([] :: (ls ++ [[]])) =
      sep :: (intercalateChar sep ls ++ [sep]) := by
  cases ls with
  | nil => exact absurd rfl h
  | cons d dl =>
    have hre : (([] : Str) :: ((d :: dl) ++ [[]])) =
        [] :: d :: (dl ++ [[]]) := by simp
    rw [hre]
    show ([] : Str) ++ sep :: intercalateChar sep (d :: (dl ++ [[]])) = _
    rw [List.nil_append]
    congr 1
    have h2 := intercalateChar_append_nil sep (d :: dl) (by simp)
    simpa using h2

theorem serializedLines_descStart (issue : Issue)
    (htr : jsTrim issue.title = issue.title) (hne : issue.title ≠ []) :
    findIdxP (fun l => jsTrim l == ("## Description".toList))
      (serializedLines issue) 0 = some 9 := by
  have p0 : (jsTrim ("# ".toList ++ issue.title) ==
      ("## Description".toList)) = false := by
    rw [title_trim issue.title htr hne]
    exact beq_eq_false_iff_ne.mpr
      (ne_of_second '#' ' ' '#' issue.title _ (by decide))
  have pE : ((jsTrim ([] : Str)) == ("## Description".toList)) = false := by
    decide
  set pD : Str → Bool := fun l => jsTrim l == ("## Description".toList)
    with hpD
  have p2 : pD ("- **id**: ".toList ++ issue.id) = false :=
    trim_dash_beq_hash_false _ _
  have p3 : pD ("- **status**: ".toList ++ issue.status) = false :=
    trim_dash_beq_hash_false _ _
  have p4 : pD ("- **created**: ".toList ++ issue.created) = false :=
    trim_dash_beq_hash_false _ _
  have p5 : pD ("- **branch**: ".toList ++ issue.branch) = false :=
    trim_dash_beq_hash_false _ _
  have p6 : pD ("- **specs**: ".toList ++ intercalateCommaSpace issue.specs) =
      false := trim_dash_beq_hash_false _ _
  have p7 : pD ("- **priority**: ".toList ++ issue.priority) = false :=
    trim_dash_beq_hash_false _ _
  unfold serializedLines
  rw [findIdxP_cons_neg pD _ _ _ p0,
    findIdxP_cons_neg pD _ _ _ pE,
    findIdxP_cons_neg pD _ _ _ p2,
    findIdxP_cons_neg pD _ _ _ p3,
    findIdxP_cons_neg pD _ _ _ p4,
    findIdxP_cons_neg pD _ _ _ p5,
    findIdxP_cons_neg pD _ _ _ p6,
    findIdxP_cons_neg pD _ _ _ p7,
    findIdxP_cons_neg pD _ _ _ pE,
    findIdxP_cons_pos pD _ _ _ (by decide)]

theorem serializedLines_acStart (issue : Issue)
    (htr : jsTrim issue.title = issue.title) (hne : issue.title ≠ [])
    (hdl : ∀ l ∈ splitOnChar '\n' issue.description,
      (jsTrim l).head? ≠ some '#') :
    findIdxP (fun l => jsTrim l == ("## Acceptance Criteria".toList))
      (serializedLines issue) 0 =
      some (12 + (splitOnChar '\n' issue.description).length) := by
  set pA : Str → Bool :=
    fun l => jsTrim l == ("## Acceptance Criteria".toList) with hpA
  have p0 : pA ("# ".toList ++ issue.title) = false := by
    show (jsTrim ("# ".toList ++ issue.title) ==
      ("## Acceptance Criteria".toList)) = false
    rw [title_trim issue.title htr hne]
    exact beq_eq_false_iff_ne.mpr
      (ne_of_second '#' ' ' '#' issue.title _ (by decide))
  have pE : pA ([] : Str) = false := by decide
  have p2 : pA ("- **id**: ".toList ++ issue.id) = false :=
    trim_dash_beq_hash_false _ _
  have p3 : pA ("- **status**: ".toList ++ issue.status) = false :=
    trim_dash_beq_hash_false _ _
  have p4 : pA ("- **created**: ".toList ++ issue.created) = false :=
    trim_dash_beq_hash_false _ _
  have p5 : pA ("- **branch**: ".toList ++ issue.branch) = false :=
    trim_dash_beq_hash_false _ _
  have p6 : pA ("- **specs**: ".toList ++ intercalateCommaSpace issue.specs) =
      false := trim_dash_beq_hash_false _ _
  have p7 : pA ("- **priority**: ".toList ++ issue.priority) = false :=
    trim_dash_beq_hash_false _ _
  have p9 : pA ("## Description".toList) = false := by decide
  have hDL : ∀ l ∈ splitOnChar '\n' issue.description, pA l = false :=
    fun l hl => trim_beq_hash_false l (hdl l hl)
      ("# Acceptance Criteria".toList)
  unfold serializedLines
  rw [findIdxP_cons_neg pA _ _ _ p0,
    findIdxP_cons_neg pA _ _ _ pE,
    findIdxP_cons_neg pA _ _ _ p2,
    findIdxP_cons_neg pA _ _ _ p3,
    findIdxP_cons_neg pA _ _ _ p4,
    findIdxP_cons_neg pA _ _ _ p5,
    findIdxP_cons_neg pA _ _ _ p6,
    findIdxP_cons_neg pA _ _ _ p7,
    findIdxP_cons_neg pA _ _ _ pE,
    findIdxP_cons_neg pA _ _ _ p9,
    findIdxP_cons_neg pA _ _ _ pE,
    findIdxP_append_none pA _ _ _ hDL,
    findIdxP_cons_neg pA _ _ _ pE,
    findIdxP_cons_pos pA _ _ _ (by decide)]
  congr 1
  omega

theorem serializedLines_logStart (issue : Issue)
    (htr : jsTrim issue.title = issue.title) (hne : issue.title ≠ [])
    (hdl : ∀ l ∈ splitOnChar '\n' issue.description,
      (jsTrim l).head? ≠ some '#')
    (hac : ∀ ac ∈ issue.acceptanceCriteria,
      ("- [".toList).isPrefixOf ac = true ∧ jsTrim ac = ac) :
    findIdxP (fun l => jsTrim l == ("## Agent Log".toList))
      (serializedLines issue) 0 =
      some (15 + (splitOnChar '\n' issue.description).length +
        issue.acceptanceCriteria.length) := by
  set pL : Str → Bool :=
    fun l => jsTrim l == ("## Agent Log".toList) with hpL
  have p0 : pL ("# ".toList ++ issue.title) = false := by
    show (jsTrim ("# ".toList ++ issue.title) ==
      ("## Agent Log".toList)) = false
    rw [title_trim issue.title htr hne]
    exact beq_eq_false_iff_ne.mpr
      (ne_of_second '#' ' ' '#' issue.title _ (by decide))
  have pE : pL ([] : Str) = false := by decide
  have p2 : pL ("- **id**: ".toList ++ issue.id) = false :=
    trim_dash_beq_hash_false _ _
  have p3 : pL ("- **status**: ".toList ++ issue.status) = false :=
    trim_dash_beq_hash_false _ _
  have p4 : pL ("- **created**: ".toList ++ issue.created) = false :=
    trim_dash_beq_hash_false _ _
  have p5 : pL ("- **branch**: ".toList ++ issue.branch) = false :=
    trim_dash_beq_hash_false _ _
  have p6 : pL ("- **specs**: ".toList ++ intercalateCommaSpace issue.specs) =
      false := trim_dash_beq_hash_false _ _
  have p7 : pL ("- **priority**: ".toList ++ issue.priority) = false :=
    trim_dash_beq_hash_false _ _
  have p9 : pL ("## Description".toList) = false := by decide
  have pAC : pL ("## Acceptance Criteria".toList) = false := by decide
  have hDL : ∀ l ∈ splitOnChar '\n' issue.description, pL l = false :=
    fun l hl => trim_beq_hash_false l (hdl l hl) ("# Agent Log".toList)
  have hACS : ∀ ac ∈ issue.acceptanceCriteria, pL ac = false := by
    intro ac hm
    rcases head_eq_of_isPrefixOf_cons '-' _ ac ((hac ac hm).1) with ⟨t, hact⟩
    show (jsTrim ac == ("## Agent Log".toList)) = false
    rw [(hac ac hm).2, hact]
    exact dash_list_beq_hash_false _ _
  unfold serializedLines
  rw [findIdxP_cons_neg pL _ _ _ p0,
    findIdxP_cons_neg pL _ _ _ pE,
    findIdxP_cons_neg pL _ _ _ p2,
    findIdxP_cons_neg pL _ _ _ p3,
    findIdxP_cons_neg pL _ _ _ p4,
    findIdxP_cons_neg pL _ _ _ p5,
    findIdxP_cons_neg pL _ _ _ p6,
    findIdxP_cons_neg pL _ _ _ p7,
    findIdxP_cons_neg pL _ _ _ pE,
    findIdxP_cons_neg pL _ _ _ p9,
    findIdxP_cons_neg pL _ _ _ pE,
    findIdxP_append_none pL _ _ _ hDL,
    findIdxP_cons_neg pL _ _ _ pE,
    findIdxP_cons_neg pL _ _ _ pAC,
    findIdxP_cons_neg pL _ _ _ pE,
    findIdxP_append_none pL _ _ _ hACS,
    findIdxP_cons_neg pL _ _ _ pE,
    findIdxP_cons_pos pL _ _ _ (by decide)]
  congr 1
  omega

theorem serializedLines_descEnd (issue : Issue)
    (hdl : ∀ l ∈ splitOnChar '\n' issue.description,
      (jsTrim l).head? ≠ some '#') :
    findIdxAfter (fun l => ("## ".toList).isPrefixOf l) ((9 : Nat) : Int)
      (serializedLines issue) 0 =
      some (12 + (splitOnChar '\n' issue.description).length) := by
  set pH : Str → Bool := fun l => ("## ".toList).isPrefixOf l with hpH
  have hDL : ∀ l ∈ splitOnChar '\n' issue.description, pH l = false :=
    fun l hl => not_hash_prefix_of_trimHead l (hdl l hl) ("# ".toList)
  have pE : pH ([] : Str) = false := rfl
  unfold serializedLines
  rw [findIdxAfter_cons_neg pH _ _ _ _
      (by rw [decide_eq_false (by omega), Bool.false_and]),
    findIdxAfter_cons_neg pH _ _ _ _
      (by rw [decide_eq_false (by omega), Bool.false_and]),
    findIdxAfter_cons_neg pH _ _ _ _
      (by rw [decide_eq_false (by omega), Bool.false_and]),
    findIdxAfter_cons_neg pH _ _ _ _
      (by rw [decide_eq_false (by omega), Bool.false_and]),
    findIdxAfter_cons_neg pH _ _ _ _
      (by rw [decide_eq_false (by omega), Bool.false_and]),
    findIdxAfter_cons_neg pH _ _ _ _
      (by rw [decide_eq_false (by omega), Bool.false_and]),
    findIdxAfter_cons_neg pH _ _ _ _
      (by rw [decide_eq_false (by omega), Bool.false_and]),
    findIdxAfter_cons_neg pH _ _ _ _
      (by rw [decide_eq_false (by omega), Bool.false_and]),
    findIdxAfter_cons_neg pH _ _ _ _
      (by rw [decide_eq_false (by omega), Bool.false_and]),
    findIdxAfter_cons_neg pH _ _ _ _
      (by rw [decide_eq_false (by omega), Bool.false_and]),
    findIdxAfter_cons_neg pH _ _ _ _ (by rw [pE, Bool.and_false]),
    findIdxAfter_append_none pH _ _ _ _ hDL,
    findIdxAfter_cons_neg pH _ _ _ _ (by rw [pE, Bool.and_false]),
    findIdxAfter_cons_pos pH _ _ _ _ (by push_cast; omega) (by decide)]
  congr 1
  omega

theorem serializedLines_acEnd (issue : Issue)
    (hac : ∀ ac ∈ issue.acceptanceCriteria,
      ("- [".toList).isPrefixOf ac = true) :
    findIdxAfter (fun l => ("## ".toList).isPrefixOf l)
      ((12 + (splitOnChar '\n' issue.description).length : Nat) : Int)
      (serializedLines issue) 0 =
      some (15 + (splitOnChar '\n' issue.description).length +
        issue.acceptanceCriteria.length) := by
  set pH : Str → Bool := fun l => ("## ".toList).isPrefixOf l with hpH
  have pE : pH ([] : Str) = false := rfl
  have hACS : ∀ ac ∈ issue.acceptanceCriteria, pH ac = false := by
    intro ac hm
    rcases head_eq_of_isPrefixOf_cons '-' _ ac (hac ac hm) with ⟨t, hact⟩
    show ("## ".toList).isPrefixOf ac = false
    rw [hact]
    exact hash_prefix_dash_false _ _
  unfold serializedLines
  rw [findIdxAfter_cons_neg pH _ _ _ _
      (by rw [decide_eq_false (by omega), Bool.false_and]),
    findIdxAfter_cons_neg pH _ _ _ _
      (by rw [decide_eq_false (by omega), Bool.false_and]),
    findIdxAfter_cons_neg pH _ _ _ _
      (by rw [decide_eq_false (by omega), Bool.false_and]),
    findIdxAfter_cons_neg pH _ _ _ _
      (by rw [decide_eq_false (by omega), Bool.false_and]),
    findIdxAfter_cons_neg pH _ _ _ _
      (by rw [decide_eq_false (by omega), Bool.false_and]),
    findIdxAfter_cons_neg pH _ _ _ _
      (by rw [decide_eq_false (by omega), Bool.false_and]),
    findIdxAfter_cons_neg pH _ _ _ _
      (by rw [decide_eq_false (by omega), Bool.false_and]),
    findIdxAfter_cons_neg pH _ _ _ _
      (by rw [decide_eq_false (by omega), Bool.false_and]),
    findIdxAfter_cons_neg pH _ _ _ _
      (by rw [decide_eq_false (by omega), Bool.false_and]),
    findIdxAfter_cons_neg pH _ _ _ _
      (by rw [decide_eq_false (by omega), Bool.false_and]),
    findIdxAfter_cons_neg pH _ _ _ _
      (by rw [decide_eq_false (by omega), Bool.false_and]),
    findIdxAfter_append_le pH _ _ _ _ (by push_cast; omega),
    findIdxAfter_cons_neg pH _ _ _ _
      (by rw [decide_eq_false (by push_cast; omega), Bool.false_and]),
    findIdxAfter_cons_neg pH _ _ _ _
      (by rw [decide_eq_false (by push_cast; omega), Bool.false_and]),
    findIdxAfter_cons_neg pH _ _ _ _ (by rw [pE, Bool.and_false]),
    findIdxAfter_append_none pH _ _ _ _ hACS,
    findIdxAfter_cons_neg pH _ _ _ _ (by rw [pE, Bool.and_false]),
    findIdxAfter_cons_pos pH _ _ _ _ (by push_cast; omega) (by decide)]
  congr 1
  omega

theorem serializedLines_descSlice (issue : Issue)
    (hdtr : jsTrim issue.description = issue.description) :
    jsTrim (intercalateChar '\n' (sliceList (serializedLines issue) (9 + 1)
      (some (12 + (splitOnChar '\n' issue.description).length)))) =
      issue.description := by
  set DL : List Str := splitOnChar '\n' issue.description with hDL
  set C11 : List Str := [("# ".toList ++ issue.title), [],
    ("- **id**: ".toList ++ issue.id),
    ("- **status**: ".toList ++ issue.status),
    ("- **created**: ".toList ++ issue.created),
    ("- **branch**: ".toList ++ issue.branch),
    ("- **specs**: ".toList ++ intercalateCommaSpace issue.specs),
    ("- **priority**: ".toList ++ issue.priority), [],
    ("## Description".toList), []] with hC11
  set R : List Str := [] :: ("## Acceptance Criteria".toList) :: [] ::
    (issue.acceptanceCriteria ++ [[], "## Agent Log".toList, []]) with hR
  have hSL : serializedLines issue = C11 ++ (DL ++ R) := rfl
  have hlen : C11.length = 11 := by rw [hC11]; rfl
  have htake : (C11 ++ (DL ++ R)).take (12 + DL.length) =
      C11 ++ (DL ++ [[]]) := by
    rw [List.take_append_eq_append_take, hlen,
      List.take_of_length_le (by rw [hlen]; omega),
      show 12 + DL.length - 11 = DL.length + 1 by omega,
      List.take_append_eq_append_take,
      List.take_of_length_le (by omega),
      show DL.length + 1 - DL.length = 1 by omega,
      show R.take 1 = [[]] by rw [hR]; rfl]
  have hdrop : (C11 ++ (DL ++ [[]])).drop (9 + 1) = [] :: (DL ++ [[]]) := by
    rw [List.drop_append_eq_append_drop, hlen,
      show C11.drop (9 + 1) = [[]] by rw [hC11]; rfl,
      show 9 + 1 - 11 = 0 by omega, List.drop_zero]
    rfl
  simp only [sliceList, hSL, htake, hdrop]
  have hne : DL ≠ [] := splitOnChar_ne_nil '\n' issue.description
  rw [intercalateChar_cons_wrap '\n' DL hne, hDL,
    intercalateChar_splitOnChar '\n' issue.description,
    jsTrim_cons_ws _ _ (by decide), jsTrim_append_ws _ _ (by decide), hdtr]

theorem serializedLines_acSlice (issue : Issue)
    (hac : ∀ ac ∈ issue.acceptanceCriteria,
      ("- [".toList).isPrefixOf ac = true ∧ jsTrim ac = ac) :
    ((sliceList (serializedLines issue)
        (12 + (splitOnChar '\n' issue.description).length + 1)
        (some (15 + (splitOnChar '\n' issue.description).length +
          issue.acceptanceCriteria.length))).filter
      (fun l => ("- [".toList).isPrefixOf (jsTrim l))).map jsTrim =
      issue.acceptanceCriteria := by
  set DL : List Str := splitOnChar '\n' issue.description with hDL
  set ACS : List Str := issue.acceptanceCriteria with hACS
  set C11 : List Str := [("# ".toList ++ issue.title), [],
    ("- **id**: ".toList ++ issue.id),
    ("- **status**: ".toList ++ issue.status),
    ("- **created**: ".toList ++ issue.created),
    ("- **branch**: ".toList ++ issue.branch),
    ("- **specs**: ".toList ++ intercalateCommaSpace issue.specs),
    ("- **priority**: ".toList ++ issue.priority), [],
    ("## Description".toList), []] with hC11
  have hSL : serializedLines issue = C11 ++ (DL ++ ([] ::
      ("## Acceptance Criteria".toList) :: [] ::
      (ACS ++ [[], "## Agent Log".toList, []]))) := rfl
  have hlen : C11.length = 11 := by rw [hC11]; rfl
  have htake : (C11 ++ (DL ++ ([] ::
      ("## Acceptance Criteria".toList) :: [] ::
      (ACS ++ [[], "## Agent Log".toList, []])))).take
        (15 + DL.length + ACS.length) =
      C11 ++ (DL ++ ([] :: ("## Acceptance Criteria".toList) :: [] ::
        (ACS ++ [[]]))) := by
    rw [List.take_append_eq_append_take, hlen,
      List.take_of_length_le (by rw [hlen]; omega),
      show 15 + DL.length + ACS.length - 11 =
        DL.length + (4 + ACS.length) by omega,
      List.take_append_eq_append_take,
      List.take_of_length_le (by omega),
      show DL.length + (4 + ACS.length) - DL.length =
        (3 + ACS.length) + 1 by omega,
      List.take_succ_cons,
      show 3 + ACS.length = (2 + ACS.length) + 1 by omega,
      List.take_succ_cons,
      show 2 + ACS.length = (1 + ACS.length) + 1 by omega,
      List.take_succ_cons,
      List.take_append_eq_append_take,
      List.take_of_length_le (by omega),
      show 1 + ACS.length - ACS.length = 1 by omega]
    rfl
  have hdrop : (C11 ++ (DL ++ ([] :: ("## Acceptance Criteria".toList) ::
      [] :: (ACS ++ [[]])))).drop (12 + DL.length + 1) =
      [] :: (ACS ++ [[]]) := by
    rw [List.drop_append_eq_append_drop, hlen,
      List.drop_of_length_le (by rw [hlen]; omega),
      show 12 + DL.length + 1 - 11 = DL.length + 2 by omega,
      List.drop_append_eq_append_drop,
      List.drop_of_length_le (by omega),
      show DL.length + 2 - DL.length = 2 by omega]
    rfl
  simp only [sliceList, hSL, htake, hdrop]
  rw [List.filter_cons_of_neg (by decide), List.filter_append]
  rw [show List.filter (fun l => ("- [".toList).isPrefixOf (jsTrim l))
      [([] : Str)] = [] from by decide]
  rw [List.filter_eq_self.mpr (fun ac hm => by
      show ("- [".toList).isPrefixOf (jsTrim ac) = true
      rw [(hac ac hm).2]
      exact (hac ac hm).1)]
  rw [List.append_nil]
  calc ACS.map jsTrim = ACS.map id :=
        List.map_congr_left fun ac hm => (hac ac hm).2
    _ = ACS := List.map_id _

theorem serializedLines_log_none (issue : Issue)
    (hdl : ∀ l ∈ splitOnChar '\n' issue.description,
      (jsTrim l).head? ≠ some '#')
    (hac : ∀ ac ∈ issue.acceptanceCriteria,
      ("- [".toList).isPrefixOf ac = true) :
    ∀ l ∈ serializedLines issue, parseLogHeader l = none := by
  intro l hl
  unfold serializedLines at hl
  rcases List.mem_cons.mp hl with rfl | hl
  · exact parseLogHeader_hash_space _
  rcases List.mem_cons.mp hl with rfl | hl
  · rfl
  rcases List.mem_cons.mp hl with rfl | hl
  · exact parseLogHeader_dash _
  rcases List.mem_cons.mp hl with rfl | hl
  · exact parseLogHeader_dash _
  rcases List.mem_cons.mp hl with rfl | hl
  · exact parseLogHeader_dash _
  rcases List.mem_cons.mp hl with rfl | hl
  · exact parseLogHeader_dash _
  rcases List.mem_cons.mp hl with rfl | hl
  · exact parseLogHeader_dash _
  rcases List.mem_cons.mp hl with rfl | hl
  · exact parseLogHeader_dash _
  rcases List.mem_cons.mp hl with rfl | hl
  · rfl
  rcases List.mem_cons.mp hl with rfl | hl
  · exact parseLogHeader_hash_hash_space _
  rcases List.mem_cons.mp hl with rfl | hl
  · rfl
  rcases List.mem_append.mp hl with hdesc | hl
  · exact parseLogHeader_eq_none _ (hdl _ hdesc)
  rcases List.mem_cons.mp hl with rfl | hl
  · rfl
  rcases List.mem_cons.mp hl with rfl | hl
  · exact parseLogHeader_hash_hash_space _
  rcases List.mem_cons.mp hl with rfl | hl
  · rfl
  rcases List.mem_append.mp hl with hacm | hl
  · rcases head_eq_of_isPrefixOf_cons '-' _ l (hac l hacm) with ⟨t, hact⟩
    rw [hact]
    exact parseLogHeader_dash _
  rcases List.mem_cons.mp hl with rfl | hl
  · rfl
  rcases List.mem_cons.mp hl with rfl | hl
  · exact parseLogHeader_hash_hash_space _
  rcases List.mem_cons.mp hl with rfl | hl
  · rfl
  simp at hl

/-- C10, amended: the serialize/parse round trip is the identity on
`id`, `title`, `slug`, `status`, `created`, `branch`, `specs`,
`priority`, `description` and `acceptanceCriteria` (and, with an empty
agent log, on the whole record) only under the parser-imposed
normalization conditions the original claim is missing: the title,
status, created, branch, priority, spec paths and acceptance criteria
must be trim-stable (`String.prototype.trim` leaves them unchanged) and
free of newlines and of `*`; the title, id, status, created and
priority must be nonempty; the id must be all digits; spec paths must
be nonempty and comma-free; the description must be trim-stable and no
line of it may trim to a `#`-headed line; each acceptance criterion
must already start with `- [`; and the agent log must be empty.
Without these conditions the round trip normalizes the record instead
of reproducing it (see the counterexample). -/
theorem c10_amended_roundtrip (issue : Issue) (now : Str)
    (ht_tr : jsTrim issue.title = issue.title)
    (ht_ne : issue.title ≠ [])
    (ht_nl : '\n' ∉ issue.title)
    (ht_st : '*' ∉ issue.title)
    (hid_ne : issue.id ≠ [])
    (hid_dig : ∀ c ∈ issue.id, c.isDigit = true)
    (hid_tr : jsTrim issue.id = issue.id)
    (hid_nl : '\n' ∉ issue.id)
    (hid_st : '*' ∉ issue.id)
    (hst_ne : issue.status ≠ [])
    (hst_tr : jsTrim issue.status = issue.status)
    (hst_nl : '\n' ∉ issue.status)
    (hst_st : '*' ∉ issue.status)
    (hcr_ne : issue.created ≠ [])
    (hcr_tr : jsTrim issue.created = issue.created)
    (hcr_nl : '\n' ∉ issue.created)
    (hcr_st : '*' ∉ issue.created)
    (hbr_tr : jsTrim issue.branch = issue.branch)
    (hbr_nl : '\n' ∉ issue.branch)
    (hbr_st : '*' ∉ issue.branch)
    (hsp : ∀ s ∈ issue.specs, s ≠ [] ∧ ',' ∉ s ∧ jsTrim s = s ∧
      '\n' ∉ s ∧ '*' ∉ s)
    (hpr_ne : issue.priority ≠ [])
    (hpr_tr : jsTrim issue.priority = issue.priority)
    (hpr_nl : '\n' ∉ issue.priority)
    (hpr_st : '*' ∉ issue.priority)
    (hde_tr : jsTrim issue.description = issue.description)
    (hde_ln : ∀ l ∈ splitOnChar '\n' issue.description,
      (jsTrim l).head? ≠ some '#')
    (hac : ∀ ac ∈ issue.acceptanceCriteria,
      ("- [".toList).isPrefixOf ac = true ∧ '\n' ∉ ac ∧ jsTrim ac = ac)
    (hlog : issue.agentLog = []) :
    parseIssue (serializeIssue issue)
      (issue.id ++ '-' :: (issue.slug ++ ".md".toList)) now = issue := by
  have hics_star : '*' ∉ intercalateCommaSpace issue.specs := by
    intro hm
    rcases mem_ics _ _ hm with ⟨l, hl, hc⟩ | h2 | h3
    · exact (hsp l hl).2.2.2.2 hc
    · exact absurd h2 (by decide)
    · exact absurd h3 (by decide)
  have hics_nl : '\n' ∉ intercalateCommaSpace issue.specs := by
    intro hm
    rcases mem_ics _ _ hm with ⟨l, hl, hc⟩ | h2 | h3
    · exact (hsp l hl).2.2.2.1 hc
    · exact absurd h2 (by decide)
    · exact absurd h3 (by decide)
  have hics_tr : jsTrim (intercalateCommaSpace issue.specs) =
      intercalateCommaSpace issue.specs :=
    ics_trimStable _ fun s hs => ⟨(hsp s hs).1, (hsp s hs).2.2.1⟩
  have hlines := serializeIssue_lines issue ht_nl hid_nl hst_nl hcr_nl
    hbr_nl hics_nl hpr_nl
    (fun ac hm => ⟨(hac ac hm).1, (hac ac hm).2.1⟩) hlog
  have hexId := serializedLines_extract_id issue ht_st hid_st hid_tr
  have hexSt := serializedLines_extract_status issue ht_st hid_st hst_st
    hst_tr
  have hexCr := serializedLines_extract_created issue ht_st hid_st hst_st
    hcr_st hcr_tr
  have hexBr := serializedLines_extract_branch issue ht_st hid_st hst_st
    hcr_st hbr_st hbr_tr
  have hexSp := serializedLines_extract_specs issue ht_st hid_st hst_st
    hcr_st hbr_st hics_star hics_tr
  have hexPr := serializedLines_extract_priority issue ht_st hid_st hst_st
    hcr_st hbr_st hics_star hpr_st hpr_tr
  have hds := serializedLines_descStart issue ht_tr ht_ne
  have hde := serializedLines_descEnd issue hde_ln
  have has0 := serializedLines_acStart issue ht_tr ht_ne hde_ln
  have hae := serializedLines_acEnd issue fun ac hm => (hac ac hm).1
  have hls := serializedLines_logStart issue ht_tr ht_ne hde_ln
    fun ac hm => ⟨(hac ac hm).1, (hac ac hm).2.2⟩
  have hdsl := serializedLines_descSlice issue hde_tr
  have hacl := serializedLines_acSlice issue
    fun ac hm => ⟨(hac ac hm).1, (hac ac hm).2.2⟩
  have hlogn := serializedLines_log_none issue hde_ln
    fun ac hm => (hac ac hm).1
  have hlog2 : ∀ st, agentLogAux ((serializedLines issue).drop st) none =
      [] := fun st =>
    agentLogAux_no_header _ fun l hl => hlogn l (List.drop_subset _ _ hl)
  have hfindT : (serializedLines issue).find?
      (fun l => ("# ".toList).isPrefixOf l) =
      some ("# ".toList ++ issue.title) := by
    unfold serializedLines
    exact List.find?_cons_of_pos _
      (isPrefixOf_append_self ("# ".toList) issue.title)
  have hrm : jsTrim (removeFirstSub ("# ".toList)
      ("# ".toList ++ issue.title)) = issue.title := by
    have h1 : removeFirstSub ("# ".toList) ("# ".toList ++ issue.title) =
        issue.title := by
      show removeFirstSub ("# ".toList) ('#' :: ' ' :: issue.title) =
        issue.title
      simp only [removeFirstSub]
      rw [if_pos (show ("# ".toList).isPrefixOf
        ('#' :: ' ' :: issue.title) = true from
        isPrefixOf_append_self _ _)]
      rfl
    rw [h1, ht_tr]
  have hslug := slug_of_filename issue.id issue.slug hid_ne hid_dig
  have hspecs_eq : (if intercalateCommaSpace issue.specs ≠ [] then
      (((splitOnChar ',' (intercalateCommaSpace issue.specs)).map
        jsTrim).filter fun s => !s.isEmpty) else []) = issue.specs := by
    cases hspn : issue.specs with
    | nil => simp [intercalateCommaSpace]
    | cons s0 srest =>
      have hmem0 : s0 ∈ issue.specs := by
        rw [hspn]
        exact List.mem_cons_self _ _
      have hne0 : intercalateCommaSpace (s0 :: srest) ≠ [] :=
        ics_ne_nil s0 srest (hsp s0 hmem0).1
      rw [if_pos hne0]
      exact parseSpecs_ics s0 srest fun s hs => by
        have hh := hsp s (by rw [hspn]; exact hs)
        exact ⟨hh.1, hh.2.1, hh.2.2.1⟩
  simp only [parseIssue, hlines, hfindT, hrm, hexId, hexSt, hexCr, hexBr,
    hexSp, hexPr, hds, hde, has0, hae, hls, hdsl, hacl, hslug, hlog2,
    List.map_nil]
  rw [if_pos hid_ne, if_pos hst_ne, if_pos hcr_ne, if_pos hpr_ne,
    hspecs_eq]
  rw [← hlog]

/-- A concrete issue satisfying every normalization condition of the
amended round-trip statement. -/
def roundtripIssue : Issue where
  id := "001".toList
  title := "Add login".toList
  slug := "add-login".toList
  status := "open".toList
  created := "2026-01-01T00:00:00.000Z".toList
  branch := "myratree/001-add-login".toList
  specs := ["specs/auth.md".toList, "specs/ui.md".toList]
  priority := "medium".toList
  description := "First line.\nSecond line.".toList
  acceptanceCriteria := ["- [ ] works".toList, "- [x] compiles".toList]
  agentLog := []

theorem c10_amended_witness :
    parseIssue (serializeIssue roundtripIssue)
      (roundtripIssue.id ++ '-' :: (roundtripIssue.slug ++ ".md".toList))
      ("2026-02-02T00:00:00.000Z".toList) = roundtripIssue :=
  c10_amended_roundtrip roundtripIssue ("2026-02-02T00:00:00.000Z".toList)
    (by decide) (by decide) (by decide) (by decide) (by decide) (by decide)
    (by decide) (by decide) (by decide) (by decide) (by decide) (by decide)
    (by decide) (by decide) (by decide) (by decide) (by decide) (by decide)
    (by decide) (by decide) (by decide) (by decide) (by decide) (by decide)
    (by decide) (by decide) (by decide) (by decide) rfl

end Myratree
